import Mathlib

/-!
Verification of the essreduce time-of-flight / streaming core.

This file gives a shallow embedding, in Lean 4, of the parts of the
`scipp/essreduce` repository that the verified properties talk about:

* `src/ess/reduce/streaming.py` — `EternalAccumulator`, `RollingAccumulator`
  and `StreamProcessor` (accumulate / construction-time precompute);
* `src/ess/reduce/time_of_flight/toa_to_tof.py` — the time-of-arrival
  unwrapping chain and the lookup-table interpolation step;
* `src/ess/reduce/time_of_flight/lookup_table.py` — the lookup-table builder
  (`compute_tof_lookup_table`, `_compute_mean_tof_in_distance_range`,
  `_mask_large_uncertainty`).

Numeric values are modelled by `ℚ` (exact arithmetic standing in for float64);
float NaN is modelled by `Option` (`none` = NaN).  The floating modulo `%` of
scipp/numpy (sign of the divisor, i.e. `x - p * ⌊x / p⌋`) is `fmod` below.
-/

namespace Streaming

/-- `EternalAccumulator._do_push` (streaming.py lines 98-102): first push deep
copies the value, later pushes add in place.  State is `_value : Option α`. -/
def eternalDoPush {α : Type} [Add α] (s : Option α) (v : α) : Option α :=
  match s with
  | none => some v
  | some a => some (a + v)

/-- Pushing a whole sequence of values into an `EternalAccumulator` that starts
in state `s`. -/
def eternalPushMany {α : Type} [Add α] (s : Option α) (vs : List α) : Option α :=
  vs.foldl eternalDoPush s

/-- `EternalAccumulator.value` (streaming.py lines 94-96): a pure read of
`_value` through `deepcopy`; returns the state, does not change it. -/
def eternalRead {α : Type} (s : Option α) : Option α × Option α := (s, s)

/-- `RollingAccumulator._do_push` (streaming.py lines 128-131): append the
value to `_values`, then `pop(0)` when the window overflows. -/
def rollingDoPush {α : Type} (window : ℕ) (s : List α) (v : α) : List α :=
  let s' := s ++ [v]
  if window < s'.length then s'.tail else s'

/-- Pushing a whole sequence of values into a `RollingAccumulator(window)`
that starts with window contents `s`. -/
def rollingPushMany {α : Type} (window : ℕ) (s : List α) (vs : List α) : List α :=
  vs.foldl (rollingDoPush window) s

/-- `RollingAccumulator.value` (streaming.py lines 123-126):
`sc.reduce(self._values).sum()`, i.e. the left fold of `+` over the window.
On an empty window `sc.reduce` has nothing to reduce and raises; the raise is
modelled by `none`. -/
def rollingValue {α : Type} [Add α] (s : List α) : Option α :=
  match s with
  | [] => none
  | v :: vs => some (vs.foldl (· + ·) v)

/-- Reading `RollingAccumulator.value`: result plus (unchanged) state. -/
def rollingRead {α : Type} [Add α] (s : List α) : Option α × List α :=
  (rollingValue s, s)

theorem eternalPushMany_some {α : Type} [AddCommMonoid α] (a : α) (vs : List α) :
    eternalPushMany (some a) vs = some (a + vs.sum) := by
  induction vs generalizing a with
  | nil => simp [eternalPushMany]
  | cons v vs ih =>
    simp only [eternalPushMany, List.foldl_cons] at *
    rw [show eternalDoPush (some a) v = some (a + v) from rfl, ih, List.sum_cons]
    rw [add_assoc]

theorem eternalPushMany_sum {α : Type} [AddCommMonoid α] (vs : List α) (h : vs ≠ []) :
    eternalPushMany (none : Option α) vs = some vs.sum := by
  cases vs with
  | nil => exact absurd rfl h
  | cons v vs =>
    show eternalPushMany (eternalDoPush none v) vs = _
    rw [show eternalDoPush (none : Option α) v = some v from rfl,
      eternalPushMany_some, List.sum_cons]

theorem rollingPushMany_drop {α : Type} (W : ℕ) (s vs : List α)
    (hs : s.length ≤ W) :
    rollingPushMany W s vs = (s ++ vs).drop (s.length + vs.length - W) := by
  induction vs generalizing s with
  | nil =>
    simp only [rollingPushMany, List.foldl_nil, List.append_nil, List.length_nil,
      Nat.add_zero]
    rw [Nat.sub_eq_zero_of_le hs, List.drop_zero]
  | cons v vs ih =>
    have hstep : rollingDoPush W s v = (s ++ [v]).drop (s.length + 1 - W) := by
      unfold rollingDoPush
      by_cases h : W < (s ++ [v]).length
      · rw [if_pos h]
        simp only [List.length_append, List.length_cons, List.length_nil] at h
        have : s.length + 1 - W = 1 := by omega
        rw [this]
        cases s with
        | nil => simp
        | cons a s => simp
      · rw [if_neg h]
        simp only [List.length_append, List.length_cons, List.length_nil,
          Nat.not_lt] at h
        have : s.length + 1 - W = 0 := by omega
        rw [this, List.drop_zero]
    show rollingPushMany W (rollingDoPush W s v) vs = _
    rw [hstep]
    have hlen : ((s ++ [v]).drop (s.length + 1 - W)).length ≤ W := by
      rw [List.length_drop]
      simp only [List.length_append, List.length_cons, List.length_nil]
      omega
    rw [ih _ hlen]
    have hle : s.length + 1 - W ≤ (s ++ [v]).length := by
      simp only [List.length_append, List.length_cons, List.length_nil]
      omega
    have hdrop : ((s ++ [v]).drop (s.length + 1 - W)) ++ vs
        = (s ++ v :: vs).drop (s.length + 1 - W) := by
      rw [show s ++ v :: vs = (s ++ [v]) ++ vs by simp,
        List.drop_append_of_le_length hle]
    rw [hdrop, List.drop_drop]
    congr 1
    rw [List.length_drop]
    simp only [List.length_append, List.length_cons, List.length_nil]
    omega

theorem rollingWindow_eq {α : Type} (W : ℕ) (vs : List α) :
    rollingPushMany W [] vs = vs.drop (vs.length - W) := by
  have := rollingPushMany_drop W [] vs (by simp)
  simpa using this

theorem foldl_add_eq_add_sum {α : Type} [AddCommMonoid α] (vs : List α) (v : α) :
    vs.foldl (· + ·) v = v + vs.sum := by
  induction vs generalizing v with
  | nil => simp
  | cons w ws ih =>
    simp only [List.foldl_cons, List.sum_cons]
    rw [ih (v + w), add_assoc]

theorem rollingValue_sum {α : Type} [AddCommMonoid α] (s : List α) (h : s ≠ []) :
    rollingValue s = some s.sum := by
  cases s with
  | nil => exact absurd rfl h
  | cons v vs =>
    simp only [rollingValue, List.sum_cons, Option.some.injEq]
    exact foldl_add_eq_add_sum vs v

end Streaming

namespace TimeOfFlight

/-- Floating-point modulo of scipp / numpy / Python on a positive divisor:
`x % p = x - p * ⌊x / p⌋` (result takes the sign of the divisor). -/
def fmod (x p : ℚ) : ℚ := x - p * ⌊x / p⌋

/-- `frame_period` (toa_to_tof.py lines 64-77): pulse period times pulse
stride. -/
def framePeriod (pulsePeriod : ℚ) (pulseStride : ℕ) : ℚ :=
  pulsePeriod * pulseStride

/-- `unwrapped_time_of_arrival_minus_frame_pivot_time` (toa_to_tof.py lines
271-291): `-pivot_time + toa`. -/
def toaMinusPivot (toa pivot : ℚ) : ℚ := -pivot + toa

/-- `time_of_arrival_minus_pivot_time_modulo_period` (toa_to_tof.py lines
294-313): the unwrapping modulo step. -/
def toaMinusPivotModPeriod (toaMinusPivotTime fp : ℚ) : ℚ :=
  fmod toaMinusPivotTime fp

/-- `time_of_arrival_folded_by_frame` (toa_to_tof.py lines 316-334): add the
pivot time back after the modulo step. -/
def frameFoldedToa (toa pivot fp : ℚ) : ℚ :=
  toaMinusPivotModPeriod (toaMinusPivot toa pivot) fp + pivot

/-- Two arrival times lie in the same frame-period window (windows of length
`fp` anchored at the pivot time). -/
def sameFrameWindow (t1 t2 pivot fp : ℚ) : Prop :=
  ⌊(t1 - pivot) / fp⌋ = ⌊(t2 - pivot) / fp⌋

theorem fmod_add_int_mul (x p : ℚ) (k : ℤ) (hp : p ≠ 0) :
    fmod (x + k * p) p = fmod x p := by
  unfold fmod
  have hdiv : (x + k * p) / p = x / p + k := by
    field_simp
  rw [hdiv, Int.floor_add_int]
  push_cast
  ring

theorem fmod_nonneg_lt (x p : ℚ) (hp : 0 < p) :
    0 ≤ fmod x p ∧ fmod x p < p := by
  have hp' : p ≠ 0 := ne_of_gt hp
  have hfr : fmod x p = p * Int.fract (x / p) := by
    unfold fmod Int.fract
    rw [mul_sub, mul_div_cancel₀ _ hp']
  constructor
  · rw [hfr]
    exact mul_nonneg hp.le (Int.fract_nonneg _)
  · rw [hfr]
    calc p * Int.fract (x / p) < p * 1 :=
      (mul_lt_mul_left hp).mpr (Int.fract_lt_one _)
    _ = p := mul_one p

end TimeOfFlight

namespace LookupTable

/-- A cell of the time-of-flight lookup table: weighted-mean time-of-flight
(`value`) and its weighted variance.  `none` models float NaN (empty bin, or a
value masked by `_mask_large_uncertainty`).  `_mask_large_uncertainty`
overwrites only `table.values`, so a masked cell keeps its variance. -/
structure Cell where
  value : Option ℚ
  variance : Option ℚ
deriving DecidableEq

/-- Cell-level condition of `_mask_large_uncertainty` (lookup_table.py lines
25-42): `sqrt(variance) / mean > threshold`.  This is the exact-arithmetic
rendering of that float comparison, without a square root:
for `variance < 0` the float `sqrt` is NaN and the comparison is false;
for `mean > 0` the comparison is `sqrt variance > threshold * mean`;
for `mean < 0` it is `sqrt variance < threshold * mean` with
`threshold * mean > 0` required; for `mean = 0` the float quotient is `inf`
(when `variance > 0`, compares true) or NaN (when `variance = 0`, false). -/
def maskCond (mean variance threshold : ℚ) : Bool :=
  if variance < 0 then false
  else if 0 < mean then
    decide (threshold * mean < 0 ∨ (threshold * mean) ^ 2 < variance)
  else if mean < 0 then
    decide (threshold < 0 ∧ variance < threshold ^ 2 * mean ^ 2)
  else decide (0 < variance)

/-- `_mask_large_uncertainty` applied to one cell: set the value (only the
value, not the variance) to NaN where the relative error exceeds the
threshold.  A cell whose value or variance is already NaN gives a NaN relative
error, which compares false, so the cell is left alone. -/
def maskCell (threshold : ℚ) (c : Cell) : Cell :=
  match c with
  | ⟨some m, some v⟩ =>
    if maskCond m v threshold then ⟨none, some v⟩ else ⟨some m, some v⟩
  | c => c

theorem maskCond_antitone (m v t1 t2 : ℚ) (h : t1 ≤ t2)
    (h2 : maskCond m v t2 = true) : maskCond m v t1 = true := by
  unfold maskCond at h2 ⊢
  by_cases hv : v < 0
  · rw [if_pos hv] at h2
    exact absurd h2 (by simp)
  · rw [if_neg hv] at h2 ⊢
    by_cases hm : 0 < m
    · rw [if_pos hm] at h2 ⊢
      rw [decide_eq_true_eq] at h2 ⊢
      rcases h2 with h2 | h2
      · left
        nlinarith
      · by_cases h1 : t1 * m < 0
        · exact Or.inl h1
        · push_neg at h1
          right
          have hab : t1 * m ≤ t2 * m := mul_le_mul_of_nonneg_right h hm.le
          have h22 : (t1 * m) ^ 2 ≤ (t2 * m) ^ 2 := by nlinarith
          linarith
    · rw [if_neg hm] at h2 ⊢
      by_cases hm' : m < 0
      · rw [if_pos hm'] at h2 ⊢
        rw [decide_eq_true_eq] at h2 ⊢
        obtain ⟨ht2, hvlt⟩ := h2
        refine ⟨lt_of_le_of_lt h ht2, ?_⟩
        have h22 : t2 ^ 2 ≤ t1 ^ 2 := by nlinarith
        have hmul := mul_le_mul_of_nonneg_right h22 (sq_nonneg m)
        linarith
      · rw [if_neg hm'] at h2 ⊢
        exact h2

end LookupTable

/-- C4: pushing `v1, …, vn` (n ≥ 1) into an `EternalAccumulator` yields
`sum(v1..vn)`; pushing more than `W` values into a
`RollingAccumulator(window=W)` (W ≥ 1) keeps exactly the last `W` pushed
values in the window (never more than `W`) and yields their sum. -/
theorem claim4_accumulator_sums (vs ws : List ℚ) (W : ℕ)
    (hvs : vs ≠ []) (hW : 0 < W) (hws : W < ws.length) :
    Streaming.eternalPushMany none vs = some vs.sum
    ∧ Streaming.rollingPushMany W [] ws = ws.drop (ws.length - W)
    ∧ (Streaming.rollingPushMany W [] ws).length ≤ W
    ∧ Streaming.rollingValue (Streaming.rollingPushMany W [] ws)
        = some ((ws.drop (ws.length - W)).sum) := by
  refine ⟨Streaming.eternalPushMany_sum vs hvs, Streaming.rollingWindow_eq W ws, ?_, ?_⟩
  · rw [Streaming.rollingWindow_eq W ws, List.length_drop]
    omega
  · rw [Streaming.rollingWindow_eq W ws]
    apply Streaming.rollingValue_sum
    have hlen : (ws.drop (ws.length - W)).length = W := by
      rw [List.length_drop]
      omega
    intro hnil
    rw [hnil] at hlen
    simp at hlen
    omega

/-- Witness for C4 at `vs = [1, 2]`, `ws = [1, 2, 3]`, `W = 2`. -/
theorem claim4_accumulator_sums_witness :
    (([1, 2] : List ℚ) ≠ [] ∧ 0 < 2 ∧ 2 < ([1, 2, 3] : List ℚ).length)
    ∧ (Streaming.eternalPushMany none ([1, 2] : List ℚ) = some ([1, 2] : List ℚ).sum
      ∧ Streaming.rollingPushMany 2 [] ([1, 2, 3] : List ℚ)
          = ([1, 2, 3] : List ℚ).drop (([1, 2, 3] : List ℚ).length - 2)
      ∧ (Streaming.rollingPushMany 2 [] ([1, 2, 3] : List ℚ)).length ≤ 2
      ∧ Streaming.rollingValue (Streaming.rollingPushMany 2 [] ([1, 2, 3] : List ℚ))
          = some ((([1, 2, 3] : List ℚ).drop (([1, 2, 3] : List ℚ).length - 2)).sum)) :=
  ⟨⟨by decide, by decide, by decide⟩,
    claim4_accumulator_sums [1, 2] [1, 2, 3] 2 (by decide) (by decide) (by decide)⟩

/-- C10 counterexample: reading `value` of a freshly constructed
`RollingAccumulator` (empty window) evaluates `sc.reduce([]).sum()`, which has
nothing to reduce and raises (modelled by `none`) instead of succeeding.  This
refutes the claim that reading the value property succeeds on every
accumulator state, including a fresh one. -/
theorem claim10_counterexample :
    (Streaming.rollingRead ([] : List ℚ)).1 = none
    ∧ ¬ ((Streaming.rollingRead ([] : List ℚ)).1.isSome = true) := by
  constructor
  · rfl
  · decide

/-- C10 amended: reading `value` never modifies the accumulator state (the
model returns the result together with the untouched state, mirroring that the
property reads `self._value` / `self._values` without assignment);
`EternalAccumulator.value` always succeeds, returning a deep copy of the
stored value (`None` before any push); `RollingAccumulator.value` succeeds
precisely when at least one value has been pushed, and raises on a freshly
constructed accumulator. -/
theorem claim10_amended_reads (s : Option ℚ) (r : List ℚ) :
    Streaming.eternalRead s = (s, s)
    ∧ (Streaming.rollingRead r).2 = r
    ∧ ((Streaming.rollingRead r).1.isSome ↔ r ≠ []) := by
  refine ⟨rfl, rfl, ?_⟩
  cases r with
  | nil => simp [Streaming.rollingRead, Streaming.rollingValue]
  | cons v vs => simp [Streaming.rollingRead, Streaming.rollingValue]

/-- C1 counterexample: with `pulse_period = 1`, `pulse_stride = 2` (so
`frame_period = 2`), pivot time `0`, arrival time `t = 0` and pulse count
`k = 1`: both `t` and `t + k * pulse_period = 1` lie in the same frame-period
window, yet the unwrapping chain folds them to different values (`0` vs `1`).
The claimed invariance under integer pulse shifts fails whenever the shift is
not a multiple of the pulse stride. -/
theorem claim1_counterexample :
    TimeOfFlight.sameFrameWindow 0 (0 + 1 * 1) 0 (TimeOfFlight.framePeriod 1 2)
    ∧ TimeOfFlight.frameFoldedToa (0 + 1 * 1) 0 (TimeOfFlight.framePeriod 1 2)
      ≠ TimeOfFlight.frameFoldedToa 0 0 (TimeOfFlight.framePeriod 1 2) := by
  constructor
  · show (⌊((0 : ℚ) - 0) / TimeOfFlight.framePeriod 1 2⌋
      = ⌊((0 : ℚ) + 1 * 1 - 0) / TimeOfFlight.framePeriod 1 2⌋)
    norm_num [TimeOfFlight.framePeriod]
  · unfold TimeOfFlight.frameFoldedToa TimeOfFlight.toaMinusPivotModPeriod
      TimeOfFlight.toaMinusPivot TimeOfFlight.fmod TimeOfFlight.framePeriod
    norm_num

/-- C1 amended: the unwrapping chain (subtract pivot, modulo
`frame_period = pulse_period * pulse_stride`, add pivot back) yields the same
`FrameFoldedTimeOfArrival` for `t` and for `t + k * pulse_period` whenever the
pulse count `k` is an integer multiple of the pulse stride (equivalently, the
shift is a whole number of frame periods); and the intermediate value after
the modulo step is non-negative and strictly less than one frame period. -/
theorem claim1_amended_fold_periodic (t pivot pp : ℚ) (stride : ℕ) (k : ℤ)
    (hpp : 0 < pp) (hs : 0 < stride) :
    TimeOfFlight.frameFoldedToa (t + ((k : ℚ) * (stride : ℚ)) * pp) pivot
        (TimeOfFlight.framePeriod pp stride)
      = TimeOfFlight.frameFoldedToa t pivot (TimeOfFlight.framePeriod pp stride)
    ∧ 0 ≤ TimeOfFlight.toaMinusPivotModPeriod (TimeOfFlight.toaMinusPivot t pivot)
        (TimeOfFlight.framePeriod pp stride)
    ∧ TimeOfFlight.toaMinusPivotModPeriod (TimeOfFlight.toaMinusPivot t pivot)
        (TimeOfFlight.framePeriod pp stride)
      < TimeOfFlight.framePeriod pp stride := by
  have hfp : (0 : ℚ) < TimeOfFlight.framePeriod pp stride := by
    unfold TimeOfFlight.framePeriod
    have : (0 : ℚ) < (stride : ℚ) := by
      exact_mod_cast hs
    positivity
  refine ⟨?_, ?_, ?_⟩
  · unfold TimeOfFlight.frameFoldedToa TimeOfFlight.toaMinusPivotModPeriod
      TimeOfFlight.toaMinusPivot
    have harg : -pivot + (t + ((k : ℚ) * (stride : ℚ)) * pp)
        = (-pivot + t) + (k : ℚ) * TimeOfFlight.framePeriod pp stride := by
      unfold TimeOfFlight.framePeriod
      ring
    rw [harg, TimeOfFlight.fmod_add_int_mul _ _ _ (ne_of_gt hfp)]
  · exact (TimeOfFlight.fmod_nonneg_lt _ _ hfp).1
  · exact (TimeOfFlight.fmod_nonneg_lt _ _ hfp).2

/-- Witness for C1 amended at `t = 5`, `pivot = 1/3`, `pp = 1`, `stride = 2`,
`k = -3` (a shift of `-3 * 2` pulse periods, i.e. three whole frames back). -/
theorem claim1_amended_fold_periodic_witness :
    ((0 : ℚ) < 1 ∧ 0 < 2)
    ∧ (TimeOfFlight.frameFoldedToa (5 + (((-3 : ℤ) : ℚ) * ((2 : ℕ) : ℚ)) * 1) (1/3)
          (TimeOfFlight.framePeriod 1 2)
        = TimeOfFlight.frameFoldedToa 5 (1/3) (TimeOfFlight.framePeriod 1 2)
      ∧ 0 ≤ TimeOfFlight.toaMinusPivotModPeriod (TimeOfFlight.toaMinusPivot 5 (1/3))
          (TimeOfFlight.framePeriod 1 2)
      ∧ TimeOfFlight.toaMinusPivotModPeriod (TimeOfFlight.toaMinusPivot 5 (1/3))
          (TimeOfFlight.framePeriod 1 2)
        < TimeOfFlight.framePeriod 1 2) :=
  ⟨⟨by norm_num, by norm_num⟩,
    claim1_amended_fold_periodic 5 (1/3) 1 2 (-3) (by norm_num) (by norm_num)⟩

/-- C7: for a fixed lookup table, the set of cells masked to NaN by the
error-threshold step `_mask_large_uncertainty` is antitone in the threshold:
for thresholds `t1 ≤ t2`, every cell masked at `t2` is also masked at `t1`;
increasing the threshold can only unmask cells. -/
theorem claim7_mask_antitone (t1 t2 : ℚ) (h : t1 ≤ t2) :
    (∀ m v : ℚ, LookupTable.maskCond m v t2 = true → LookupTable.maskCond m v t1 = true)
    ∧ ∀ c : LookupTable.Cell,
        c.value ≠ none → (LookupTable.maskCell t2 c).value = none →
        (LookupTable.maskCell t1 c).value = none := by
  constructor
  · intro m v
    exact LookupTable.maskCond_antitone m v t1 t2 h
  · intro c hv h2
    obtain ⟨cv, cvar⟩ := c
    cases cv with
    | none => exact absurd rfl hv
    | some m =>
      cases cvar with
      | none =>
        simp only [LookupTable.maskCell] at h2
        simp at h2
      | some v =>
        simp only [LookupTable.maskCell] at h2 ⊢
        by_cases hmask : LookupTable.maskCond m v t2 = true
        · rw [if_pos (LookupTable.maskCond_antitone m v t1 t2 h hmask)]
        · rw [if_neg hmask] at h2
          simp at h2

/-- Witness for C7 at `t1 = 0`, `t2 = 1`, exercised on `m = 1`, `v = 4`. -/
theorem claim7_mask_antitone_witness :
    ((0 : ℚ) ≤ 1)
    ∧ ((∀ m v : ℚ, LookupTable.maskCond m v 1 = true → LookupTable.maskCond m v 0 = true)
      ∧ ∀ c : LookupTable.Cell,
          c.value ≠ none → (LookupTable.maskCell 1 c).value = none →
          (LookupTable.maskCell 0 c).value = none) :=
  ⟨by norm_num, claim7_mask_antitone 0 1 (by norm_num)⟩

namespace LookupTable

/-- One simulated neutron of `SimulationResults`: flat columns
`time_of_arrival`, `speed`, `wavelength`, `weight`. -/
structure SimEvent where
  toa : ℚ
  speed : ℚ
  wavelength : ℚ
  weight : ℚ
deriving DecidableEq

/-- Arithmetic-progression list `[s, s + r, …, s + (n - 1) * r]`, the shape of
every bin-edge mesh in the builder (`sc.arange`, shifted `sc.linspace`). -/
def apList (s r : ℚ) : ℕ → List ℚ
  | 0 => []
  | n + 1 => s :: apList (s + r) r n

/-- `sc.arange(start, stop, step)`: the values `start + i * step` for
`0 ≤ i < ⌈(stop - start) / step⌉` (exclusive stop). -/
def arangeQ (start stop step : ℚ) : List ℚ :=
  apList start step (⌈(stop - start) / step⌉).toNat

/-- The bins delimited by a bin-edge list: consecutive (left, right) pairs. -/
def adjacentPairs (l : List ℚ) : List (ℚ × ℚ) := l.zip l.tail

/-- `sc.midpoints` of a bin-edge list. -/
def midpointsQ (l : List ℚ) : List ℚ :=
  (adjacentPairs l).map (fun p => (p.1 + p.2) / 2)

/-- Python list slice `l[a:b]`. -/
def sliceList {α : Type} (l : List α) (a b : ℕ) : List α := (l.drop a).take (b - a)

/-- One flattened record of `_compute_mean_tof_in_distance_range`: a
(distance-bin center, simulated neutron) pair with its coordinates. -/
structure TofRecord where
  dist : ℚ
  tof : ℚ
  eto : ℚ
  weight : ℚ
deriving DecidableEq

/-- The record for distance-bin center `c` and neutron `ev`
(lookup_table.py lines 75-103): `toa = ev.toa + c / speed` (arrival time
propagated to the bin center), `dist = c + simulation_distance`,
`tof = dist * (m_n / h) * wavelength` with `κ` standing for `m_n / h` in the
working units, and the doubly wrapped
`event_time_offset = (toa % frame_period) % (frame_period - half_bin_width)`. -/
def mkRecord (simDist κ fp hw : ℚ) (c : ℚ) (ev : SimEvent) : TofRecord :=
  { dist := c + simDist
    tof := (c + simDist) * κ * ev.wavelength
    eto := TimeOfFlight.fmod (TimeOfFlight.fmod (ev.toa + c / ev.speed) fp) (fp - hw)
    weight := ev.weight }

/-- All records for a set of distance-bin edges, flattened with the distance
axis outermost (the order of `.flatten(to='event')`). -/
def recordsOf (sim : List SimEvent) (simDist κ : ℚ) (distEdges : List ℚ)
    (fp hw : ℚ) : List TofRecord :=
  (adjacentPairs distEdges).flatMap (fun p =>
    sim.map (mkRecord simDist κ fp hw ((p.1 + p.2) / 2)))

/-- Per-bin statistics (lookup_table.py lines 109-118): weight-weighted mean
of `tof` and the weighted variance of `tof` about that mean.  A zero total
weight (empty bin) makes both float quotients NaN. -/
def cellStats (rs : List TofRecord) : Cell :=
  let wsum := (rs.map (fun x => x.weight)).sum
  if wsum = 0 then ⟨none, none⟩
  else
    let mean := (rs.map (fun x => x.weight * x.tof)).sum / wsum
    ⟨some mean, some ((rs.map (fun x => x.weight * (x.tof - mean) ^ 2)).sum / wsum)⟩

/-- Bin a distance bin's records along `event_time_offset` (half-open bins of
the staggered `time_bins` mesh) and take per-bin statistics. -/
def timeBinnedCells (rs : List TofRecord) (timeBins : List ℚ) : List Cell :=
  (adjacentPairs timeBins).map (fun q =>
    cellStats (rs.filter (fun x => decide (q.1 ≤ x.eto ∧ x.eto < q.2))))

/-- `_compute_mean_tof_in_distance_range` (lookup_table.py lines 45-119): one
row of cells per distance bin; records are binned by their `distance`
coordinate against `distance_bins + simulation_distance`. -/
def meanTofRows (sim : List SimEvent) (simDist κ : ℚ) (distEdges : List ℚ)
    (timeBins : List ℚ) (fp hw : ℚ) : List (List Cell) :=
  (adjacentPairs distEdges).map (fun p =>
    timeBinnedCells
      ((recordsOf sim simDist κ distEdges fp hw).filter
        (fun x => decide (p.1 + simDist ≤ x.dist ∧ x.dist < p.2 + simDist)))
      timeBins)

/-- Staggered `event_time_offset` bin edges (lookup_table.py lines 222-227):
`linspace(0, frame_period, nbins + 1)` minus half a bin width. -/
def timeBinsOf (fp : ℚ) (n : ℕ) : List ℚ := apList (-(fp / n / 2)) (fp / n) (n + 1)

/-- Distance-bin edges (lookup_table.py lines 199-214): `arange` over the
requested range relative to the simulation distance, padded by `2 * res` on
both sides. -/
def distanceBinsOf (lmin lmax simDist r : ℚ) : List ℚ :=
  arangeQ (lmin - simDist - 2 * r) (lmax - simDist + 2 * r) r

/-- The distance-axis chunking (lookup_table.py lines 229-238):
`nchunks = ndist * nevents / 2e7`, `chunk_size = int(ndist / nchunks) + 1`,
slices `distance_bins[i * chunk_size : (i + 1) * chunk_size + 1]` for
`i in range(int(nchunks) + 1)`. -/
def nchunksOf (ndist nev : ℕ) : ℚ := ((ndist * nev : ℕ) : ℚ) / 20000000

def chunkSizeOf (ndist nev : ℕ) : ℕ := (⌊(ndist : ℚ) / nchunksOf ndist nev⌋).toNat + 1

def niterOf (ndist nev : ℕ) : ℕ := (⌊nchunksOf ndist nev⌋).toNat + 1

def piecesOf (distanceBins : List ℚ) (nev : ℕ) : List (List ℚ) :=
  (List.range (niterOf (distanceBins.length - 1) nev)).map
    (fun i => sliceList distanceBins
      (i * chunkSizeOf (distanceBins.length - 1) nev)
      ((i + 1) * chunkSizeOf (distanceBins.length - 1) nev + 1))

/-- `sc.concat` of the pieces along `distance`: bin-edge coordinates are
joined by dropping each subsequent piece's leading (shared) edge. -/
def joinEdges : List (List ℚ) → List ℚ
  | [] => []
  | e :: es => e ++ es.flatMap List.tail

/-- The assembled lookup table. -/
structure Table where
  distCoords : List ℚ
  etoCoords : List ℚ
  rows : List (List Cell)
deriving DecidableEq

/-- Assembly steps shared by the chunked loop and the one-pass reference
(lookup_table.py lines 237-278): concatenate the pieces' rows and edge
coordinates, convert both coordinate meshes to midpoints, append a copy of the
first `event_time_offset` column (and the coordinate `frame_period`) for
periodic boundary conditions, then mask cells with large uncertainty. -/
def tableFromPieces (sim : List SimEvent) (simDist κ : ℚ) (pieces : List (List ℚ))
    (timeBins : List ℚ) (fp hw thresh : ℚ) : Table :=
  let rows := pieces.flatMap (fun e => meanTofRows sim simDist κ e timeBins fp hw)
  let rowsP := rows.map (fun row => row ++ row.take 1)
  { distCoords := (midpointsQ (joinEdges pieces)).map (fun c => c + simDist)
    etoCoords := midpointsQ timeBins ++ [fp]
    rows := rowsP.map (fun row => row.map (maskCell thresh)) }

/-- `compute_tof_lookup_table` (lookup_table.py lines 122-280). -/
def computeTofLookupTable (sim : List SimEvent) (simDist κ lmin lmax r timeRes pp : ℚ)
    (stride : ℕ) (thresh : ℚ) : Table :=
  let fp := pp * stride
  let nbins := (⌊fp / timeRes⌋).toNat + 1
  tableFromPieces sim simDist κ (piecesOf (distanceBinsOf lmin lmax simDist r) sim.length)
    (timeBinsOf fp nbins) fp (fp / nbins / 2) thresh

/-- Reference computation described by the spec: identical to
`computeTofLookupTable` except that the whole distance-bin-edge range is
processed as a single piece (one pass, no chunking). -/
def computeTofLookupTableOnePass (sim : List SimEvent)
    (simDist κ lmin lmax r timeRes pp : ℚ) (stride : ℕ) (thresh : ℚ) : Table :=
  let fp := pp * stride
  let nbins := (⌊fp / timeRes⌋).toNat + 1
  tableFromPieces sim simDist κ [distanceBinsOf lmin lmax simDist r]
    (timeBinsOf fp nbins) fp (fp / nbins / 2) thresh

end LookupTable

namespace LookupTable

theorem apList_length (s r : ℚ) (n : ℕ) : (apList s r n).length = n := by
  induction n generalizing s with
  | zero => rfl
  | succ m ih => simp [apList, ih]

theorem apList_head? (s r : ℚ) (n : ℕ) (h : 0 < n) : (apList s r n).head? = some s := by
  cases n with
  | zero => omega
  | succ m => rfl

theorem apList_succ_concat (s r : ℚ) (n : ℕ) :
    apList s r (n + 1) = apList s r n ++ [s + n * r] := by
  induction n generalizing s with
  | zero => simp [apList]
  | succ m ih =>
    show s :: apList (s + r) r (m + 1) = (s :: apList (s + r) r m) ++ _
    rw [ih (s + r), List.cons_append]
    congr 2
    push_cast
    ring

theorem apList_getLast? (s r : ℚ) (n : ℕ) :
    (apList s r (n + 1)).getLast? = some (s + n * r) := by
  rw [apList_succ_concat, List.getLast?_concat]

theorem apList_drop (s r : ℚ) : ∀ (a n : ℕ),
    (apList s r n).drop a = apList (s + a * r) r (n - a) := by
  intro a
  induction a generalizing s with
  | zero => intro n; simp
  | succ b ih =>
    intro n
    cases n with
    | zero => simp [apList]
    | succ m =>
      show (apList (s + r) r m).drop b = _
      rw [ih (s + r) m]
      rw [show s + r + (b : ℚ) * r = s + ((b + 1 : ℕ) : ℚ) * r by push_cast; ring]
      rw [Nat.succ_sub_succ]

theorem apList_take (s r : ℚ) : ∀ (m n : ℕ),
    (apList s r n).take m = apList s r (min m n) := by
  intro m
  induction m generalizing s with
  | zero => intro n; simp [apList]
  | succ b ih =>
    intro n
    cases n with
    | zero => simp [apList]
    | succ k =>
      show s :: (apList (s + r) r k).take b = _
      rw [ih (s + r) k, Nat.succ_min_succ]
      rfl

theorem apList_map_add (s r t : ℚ) (n : ℕ) :
    (apList s r n).map (fun c => c + t) = apList (s + t) r n := by
  induction n generalizing s with
  | zero => rfl
  | succ m ih =>
    simp only [apList, List.map_cons]
    rw [ih (s + r)]
    congr 1
    ring

theorem sliceList_apList (s r : ℚ) (n a b : ℕ) :
    sliceList (apList s r n) a b = apList (s + a * r) r (min (b - a) (n - a)) := by
  unfold sliceList
  rw [apList_drop, apList_take]

theorem adjacentPairs_cons_cons (x y : ℚ) (l : List ℚ) :
    adjacentPairs (x :: y :: l) = (x, y) :: adjacentPairs (y :: l) := rfl

theorem adjacentPairs_length (l : List ℚ) : (adjacentPairs l).length = l.length - 1 := by
  cases l with
  | nil => rfl
  | cons x t =>
    simp only [adjacentPairs, List.length_zip, List.tail_cons, List.length_cons]
    omega

theorem adjacentPairs_drop (l : List ℚ) : ∀ a : ℕ,
    adjacentPairs (l.drop a) = (adjacentPairs l).drop a := by
  induction l with
  | nil => intro a; simp [adjacentPairs]
  | cons x t ih =>
    intro a
    cases a with
    | zero => simp
    | succ b =>
      rw [List.drop_succ_cons, ih b]
      cases t with
      | nil => simp [adjacentPairs]
      | cons y t2 =>
        rw [adjacentPairs_cons_cons, List.drop_succ_cons]

theorem adjacentPairs_take (l : List ℚ) : ∀ m : ℕ,
    adjacentPairs (l.take (m + 1)) = (adjacentPairs l).take m := by
  induction l with
  | nil => intro m; simp [adjacentPairs]
  | cons x t ih =>
    intro m
    cases t with
    | nil =>
      simp [adjacentPairs]
    | cons y t2 =>
      cases m with
      | zero =>
        simp [adjacentPairs]
      | succ b =>
        rw [List.take_succ_cons, List.take_succ_cons, adjacentPairs_cons_cons,
          show y :: List.take b t2 = List.take (b + 1) (y :: t2) from rfl,
          ih b, adjacentPairs_cons_cons, List.take_succ_cons]

theorem adjacentPairs_sliceList (l : List ℚ) (a cs : ℕ) :
    adjacentPairs (sliceList l a (a + cs + 1)) = sliceList (adjacentPairs l) a (a + cs) := by
  unfold sliceList
  rw [show a + cs + 1 - a = cs + 1 by omega, show a + cs - a = cs by omega,
    adjacentPairs_take, adjacentPairs_drop]

theorem midpointsQ_cons_cons (x y : ℚ) (l : List ℚ) :
    midpointsQ (x :: y :: l) = (x + y) / 2 :: midpointsQ (y :: l) := rfl

theorem midpointsQ_apList (s r : ℚ) (n : ℕ) :
    midpointsQ (apList s r (n + 1)) = apList (s + r / 2) r n := by
  induction n generalizing s with
  | zero => rfl
  | succ m ih =>
    show midpointsQ (s :: (s + r) :: apList (s + r + r) r m) = _
    rw [midpointsQ_cons_cons,
      show (s + r) :: apList (s + r + r) r m = apList (s + r) r (m + 1) from rfl,
      ih (s + r)]
    show _ = (s + r / 2) :: apList (s + r / 2 + r) r m
    congr 2 <;> ring

theorem flatMap_chunks {α : Type} (cs : ℕ) (hcs : 0 < cs) :
    ∀ (niter : ℕ) (l : List α), l.length ≤ niter * cs →
    (List.range niter).flatMap (fun i => sliceList l (i * cs) (i * cs + cs)) = l := by
  intro niter
  induction niter with
  | zero =>
    intro l h
    simp only [Nat.zero_mul, Nat.le_zero] at h
    rw [List.eq_nil_of_length_eq_zero h]
    rfl
  | succ m ih =>
    intro l h
    rw [List.range_succ_eq_map, List.flatMap_cons, List.flatMap_map]
    have h0 : sliceList l (0 * cs) (0 * cs + cs) = l.take cs := by
      simp [sliceList]
    have hterm : ∀ i : ℕ, sliceList l (Nat.succ i * cs) (Nat.succ i * cs + cs)
        = sliceList (l.drop cs) (i * cs) (i * cs + cs) := by
      intro i
      simp only [sliceList, List.drop_drop]
      have e3 : Nat.succ i * cs = cs + i * cs := by
        simp only [Nat.succ_eq_add_one]
        ring
      rw [show Nat.succ i * cs + cs - Nat.succ i * cs = cs by omega,
        show i * cs + cs - i * cs = cs by omega, e3]
    have hmul : (m + 1) * cs = m * cs + cs := by ring
    have hlen : (l.drop cs).length ≤ m * cs := by
      rw [List.length_drop]
      omega
    rw [h0]
    simp only [hterm]
    rw [ih (l.drop cs) hlen, List.take_append_drop]

theorem tail_sliceList {α : Type} (l : List α) (a b : ℕ) :
    (sliceList l a b).tail = sliceList l (a + 1) b := by
  unfold sliceList
  rw [← List.drop_one, List.drop_take, List.drop_drop,
    show a + 1 = 1 + a by omega, show b - (1 + a) = b - a - 1 by omega]

theorem joinEdges_chunks (l : List ℚ) (cs m : ℕ) (hcs : 0 < cs)
    (h : l.length - 1 ≤ (m + 1) * cs) :
    joinEdges ((List.range (m + 1)).map
      (fun i => sliceList l (i * cs) ((i + 1) * cs + 1))) = l := by
  rw [List.range_succ_eq_map, List.map_cons, List.map_map]
  simp only [joinEdges, Function.comp]
  have hterm : ∀ i : ℕ,
      (sliceList l (Nat.succ i * cs) ((Nat.succ i + 1) * cs + 1)).tail
        = sliceList (l.drop (cs + 1)) (i * cs) (i * cs + cs) := by
    intro i
    rw [tail_sliceList]
    simp only [sliceList, List.drop_drop]
    have e1 : (Nat.succ i + 1) * cs = Nat.succ i * cs + cs := by ring
    have e3 : Nat.succ i * cs + 1 = cs + 1 + i * cs := by
      simp only [Nat.succ_eq_add_one]
      ring
    rw [show (Nat.succ i + 1) * cs + 1 - (Nat.succ i * cs + 1) = cs by omega,
      show i * cs + cs - i * cs = cs by omega, e3]
  rw [List.flatMap_map]
  simp only [Function.comp_apply]
  simp only [hterm]
  have hlen : (l.drop (cs + 1)).length ≤ m * cs := by
    rw [List.length_drop]
    have : (m + 1) * cs = m * cs + cs := by ring
    omega
  rw [flatMap_chunks cs hcs m (l.drop (cs + 1)) hlen]
  have h0 : sliceList l (0 * cs) ((0 + 1) * cs + 1) = l.take (cs + 1) := by
    simp [sliceList]
  rw [h0, List.take_append_drop]

end LookupTable

namespace LookupTable

theorem adjacentPairs_apList (s r : ℚ) (n : ℕ) :
    adjacentPairs (apList s r (n + 1))
      = (List.range n).map (fun i : ℕ => (s + (i : ℚ) * r, s + (i : ℚ) * r + r)) := by
  induction n generalizing s with
  | zero => rfl
  | succ m ih =>
    show adjacentPairs (s :: apList (s + r) r (m + 1)) = _
    rw [show apList (s + r) r (m + 1) = (s + r) :: apList (s + r + r) r m from rfl,
      adjacentPairs_cons_cons,
      show (s + r) :: apList (s + r + r) r m = apList (s + r) r (m + 1) from rfl,
      ih (s + r), List.range_succ_eq_map, List.map_cons, List.map_map]
    congr 1
    · simp
    · refine List.map_congr_left ?_
      intro a _
      simp only [Function.comp_apply, Prod.mk.injEq]
      push_cast
      constructor <;> ring

theorem filter_map_const {α β : Type} (l : List α) (g : α → β) (q : β → Bool) (b : Bool)
    (h : ∀ a, q (g a) = b) :
    (l.map g).filter q = if b then l.map g else [] := by
  induction l with
  | nil => cases b <;> simp
  | cons x t ih =>
    simp only [List.map_cons, List.filter_cons, h x, ih]
    cases b <;> simp

theorem flatMap_ite_single {α : Type} (j : ℕ) (X : ℕ → List α) :
    ∀ n : ℕ, j < n →
    (List.range n).flatMap (fun i => if i = j then X i else []) = X j := by
  intro n
  induction n with
  | zero => omega
  | succ m ih =>
    intro hj
    rw [List.range_succ, List.flatMap_append]
    by_cases hjm : j < m
    · rw [ih hjm]
      have hne : ¬ (m = j) := by omega
      simp [hne]
    · have hjm' : j = m := by omega
      subst hjm'
      have hnil : (List.range j).flatMap (fun i => if i = j then X i else []) = [] := by
        rw [List.flatMap_eq_nil_iff]
        intro x hx
        rw [List.mem_range] at hx
        rw [if_neg (by omega)]
      rw [hnil]
      simp

theorem meanTofRows_apList (sim : List SimEvent) (simDist κ : ℚ) (tb : List ℚ)
    (fp hw s r : ℚ) (n : ℕ) (hr : 0 < r) :
    meanTofRows sim simDist κ (apList s r n) tb fp hw
      = (adjacentPairs (apList s r n)).map (fun p =>
          timeBinnedCells (sim.map (mkRecord simDist κ fp hw ((p.1 + p.2) / 2))) tb) := by
  cases n with
  | zero => rfl
  | succ m =>
    unfold meanTofRows recordsOf
    rw [adjacentPairs_apList]
    rw [List.map_map, List.map_map]
    refine List.map_congr_left ?_
    intro j hj
    rw [List.mem_range] at hj
    simp only [Function.comp_apply]
    congr 1
    rw [List.flatMap_map, List.filter_flatMap]
    have hcond : ∀ i : ℕ, ∀ ev : SimEvent,
        (decide ((s + (j : ℚ) * r, s + (j : ℚ) * r + r).1 + simDist
            ≤ (mkRecord simDist κ fp hw
                (((s + (i : ℚ) * r, s + (i : ℚ) * r + r).1
                  + (s + (i : ℚ) * r, s + (i : ℚ) * r + r).2) / 2) ev).dist
          ∧ (mkRecord simDist κ fp hw
                (((s + (i : ℚ) * r, s + (i : ℚ) * r + r).1
                  + (s + (i : ℚ) * r, s + (i : ℚ) * r + r).2) / 2) ev).dist
            < (s + (j : ℚ) * r, s + (j : ℚ) * r + r).2 + simDist))
          = decide (i = j) := by
      intro i ev
      rw [decide_eq_decide]
      simp only [mkRecord]
      constructor
      · rintro ⟨h1, h2⟩
        by_contra hne
        rcases Nat.lt_or_gt_of_ne hne with hlt | hgt
        · have hc : (i : ℚ) + 1 ≤ (j : ℚ) := by exact_mod_cast hlt
          have := mul_le_mul_of_nonneg_right hc hr.le
          nlinarith
        · have hc : (j : ℚ) + 1 ≤ (i : ℚ) := by exact_mod_cast hgt
          have := mul_le_mul_of_nonneg_right hc hr.le
          nlinarith
      · rintro rfl
        constructor <;> nlinarith
    have hfil : ∀ i : ℕ,
        List.filter (fun x => decide ((s + (j : ℚ) * r, s + (j : ℚ) * r + r).1 + simDist ≤ x.dist
            ∧ x.dist < (s + (j : ℚ) * r, s + (j : ℚ) * r + r).2 + simDist))
          (sim.map (mkRecord simDist κ fp hw
            (((s + (i : ℚ) * r, s + (i : ℚ) * r + r).1
              + (s + (i : ℚ) * r, s + (i : ℚ) * r + r).2) / 2)))
          = if i = j then sim.map (mkRecord simDist κ fp hw
              (((s + (i : ℚ) * r, s + (i : ℚ) * r + r).1
                + (s + (i : ℚ) * r, s + (i : ℚ) * r + r).2) / 2)) else [] := by
      intro i
      rw [filter_map_const _ _ _ (decide (i = j)) (fun ev => hcond i ev)]
      by_cases hij : i = j
      · rw [if_pos (by simp [hij]), if_pos hij]
      · rw [if_neg (by simp [hij]), if_neg hij]
    simp only [hfil]
    rw [flatMap_ite_single j _ m hj]

end LookupTable

namespace LookupTable

theorem chunk_coverage (d nev : ℕ) (hd : 0 < d) (hn : 0 < nev) :
    d ≤ niterOf d nev * chunkSizeOf d nev := by
  unfold niterOf chunkSizeOf
  set q : ℚ := nchunksOf d nev with hq
  have hq0 : 0 < q := by
    rw [hq]
    unfold nchunksOf
    apply div_pos
    · exact_mod_cast Nat.mul_pos hd hn
    · norm_num
  have hfq : (0 : ℤ) ≤ ⌊q⌋ := Int.floor_nonneg.mpr hq0.le
  have hfd : (0 : ℤ) ≤ ⌊(d : ℚ) / q⌋ := Int.floor_nonneg.mpr (div_nonneg (by positivity) hq0.le)
  have hacast : ((⌊q⌋.toNat : ℕ) : ℚ) = ((⌊q⌋ : ℤ) : ℚ) := by
    rw [← Int.toNat_of_nonneg hfq]
    push_cast
    rw [Int.toNat_of_nonneg hfq]
  have hbcast : ((⌊(d : ℚ) / q⌋.toNat : ℕ) : ℚ) = ((⌊(d : ℚ) / q⌋ : ℤ) : ℚ) := by
    rw [← Int.toNat_of_nonneg hfd]
    push_cast
    rw [Int.toNat_of_nonneg hfd]
  have ha : q < (⌊q⌋.toNat : ℚ) + 1 := by
    rw [hacast]
    exact Int.lt_floor_add_one q
  have hb : (d : ℚ) / q < (⌊(d : ℚ) / q⌋.toNat : ℚ) + 1 := by
    rw [hbcast]
    exact Int.lt_floor_add_one _
  have hd' : (d : ℚ) = q * ((d : ℚ) / q) := (mul_div_cancel₀ _ (ne_of_gt hq0)).symm
  have hmul : (d : ℚ) < ((⌊q⌋.toNat + 1) * (⌊(d : ℚ) / q⌋.toNat + 1) : ℕ) := by
    push_cast
    calc (d : ℚ) = q * ((d : ℚ) / q) := hd'
    _ < ((⌊q⌋.toNat : ℚ) + 1) * ((⌊(d : ℚ) / q⌋.toNat : ℚ) + 1) := by
        apply mul_lt_mul'' ha hb hq0.le (div_nonneg (by positivity) hq0.le)
  have : d < (⌊q⌋.toNat + 1) * (⌊(d : ℚ) / q⌋.toNat + 1) := by exact_mod_cast hmul
  omega

theorem distanceBins_eq (lmin lmax simDist r : ℚ) (hr : 0 < r) (hlm : lmin ≤ lmax) :
    distanceBinsOf lmin lmax simDist r
      = apList (lmin - simDist - 2 * r) r ((⌈(lmax - lmin) / r⌉).toNat + 4) := by
  unfold distanceBinsOf arangeQ
  congr 1
  have harg : (lmax - simDist + 2 * r - (lmin - simDist - 2 * r)) / r
      = (lmax - lmin) / r + ((4 : ℤ) : ℚ) := by
    push_cast
    field_simp
    ring
  rw [harg, Int.ceil_add_int]
  have hC : (0 : ℤ) ≤ ⌈(lmax - lmin) / r⌉ := Int.ceil_nonneg (div_nonneg (by linarith) hr.le)
  omega

theorem joinEdges_single (e : List ℚ) : joinEdges [e] = e := by
  simp [joinEdges]

theorem joinEdges_piecesOf (l : List ℚ) (nev : ℕ) (hlen : 2 ≤ l.length) (hn : 0 < nev) :
    joinEdges (piecesOf l nev) = l := by
  unfold piecesOf
  have hd : 0 < l.length - 1 := by omega
  have hcover : l.length - 1 ≤ niterOf (l.length - 1) nev * chunkSizeOf (l.length - 1) nev :=
    chunk_coverage (l.length - 1) nev hd hn
  have hcs : 0 < chunkSizeOf (l.length - 1) nev := by
    unfold chunkSizeOf
    omega
  have hniter : niterOf (l.length - 1) nev
      = (⌊nchunksOf (l.length - 1) nev⌋).toNat + 1 := rfl
  rw [hniter]
  apply joinEdges_chunks l _ _ hcs
  rw [← hniter]
  omega

end LookupTable

namespace LookupTable

theorem meanTofRows_piecesOf (sim : List SimEvent) (simDist κ : ℚ) (tb : List ℚ)
    (fp hw s r : ℚ) (K : ℕ) (hr : 0 < r) (hK : 2 ≤ K) (hn : 0 < sim.length) :
    (piecesOf (apList s r K) sim.length).flatMap
        (fun e => meanTofRows sim simDist κ e tb fp hw)
      = meanTofRows sim simDist κ (apList s r K) tb fp hw := by
  unfold piecesOf
  rw [List.flatMap_map]
  have hlen : (apList s r K).length = K := apList_length s r K
  rw [hlen]
  set cs := chunkSizeOf (K - 1) sim.length with hcs_def
  set niter := niterOf (K - 1) sim.length with hniter_def
  have hcs : 0 < cs := by
    rw [hcs_def]
    unfold chunkSizeOf
    omega
  have hcover : K - 1 ≤ niter * cs := by
    rw [hcs_def, hniter_def]
    exact chunk_coverage (K - 1) sim.length (by omega) hn
  have hterm : ∀ i : ℕ,
      meanTofRows sim simDist κ
          (sliceList (apList s r K) (i * cs) ((i + 1) * cs + 1)) tb fp hw
        = (adjacentPairs (sliceList (apList s r K) (i * cs) ((i + 1) * cs + 1))).map
            (fun p =>
              timeBinnedCells (sim.map (mkRecord simDist κ fp hw ((p.1 + p.2) / 2))) tb) := by
    intro i
    rw [sliceList_apList]
    exact meanTofRows_apList sim simDist κ tb fp hw _ r _ hr
  simp only [hterm]
  rw [← List.map_flatMap]
  have hpairs : ∀ i : ℕ,
      adjacentPairs (sliceList (apList s r K) (i * cs) ((i + 1) * cs + 1))
        = sliceList (adjacentPairs (apList s r K)) (i * cs) (i * cs + cs) := by
    intro i
    rw [show (i + 1) * cs + 1 = i * cs + cs + 1 by ring]
    exact adjacentPairs_sliceList _ (i * cs) cs
  simp only [hpairs]
  rw [flatMap_chunks cs hcs niter (adjacentPairs (apList s r K))
    (by rw [adjacentPairs_length, hlen]; exact hcover)]
  rw [meanTofRows_apList sim simDist κ tb fp hw s r K hr]

end LookupTable

/-- C8: computing the lookup table in distance-axis chunks (the memory-bounded
loop of `compute_tof_lookup_table`: partition the distance-bin edges into
consecutive overlapping slices, compute the weighted-mean time-of-flight table
for each slice, concatenate along the distance dimension) yields exactly the
same table — same cell values, variances, mask and coordinates — as computing
it in one pass over the full distance-bin range. -/
theorem claim8_chunked_equals_onepass (sim : List LookupTable.SimEvent)
    (simDist κ lmin lmax r timeRes pp : ℚ) (stride : ℕ) (thresh : ℚ)
    (hr : 0 < r) (hlm : lmin ≤ lmax) (hsim : sim ≠ []) :
    LookupTable.computeTofLookupTable sim simDist κ lmin lmax r timeRes pp stride thresh
      = LookupTable.computeTofLookupTableOnePass sim simDist κ lmin lmax r timeRes pp
          stride thresh := by
  have hn : 0 < sim.length := List.length_pos.mpr hsim
  have hDB := LookupTable.distanceBins_eq lmin lmax simDist r hr hlm
  have hlen2 : 2 ≤ (LookupTable.distanceBinsOf lmin lmax simDist r).length := by
    rw [hDB, LookupTable.apList_length]
    omega
  have hedges := LookupTable.joinEdges_piecesOf
    (LookupTable.distanceBinsOf lmin lmax simDist r) sim.length hlen2 hn
  simp only [LookupTable.computeTofLookupTable, LookupTable.computeTofLookupTableOnePass,
    LookupTable.tableFromPieces]
  rw [hedges, LookupTable.joinEdges_single]
  rw [List.flatMap_cons, List.flatMap_nil, List.append_nil]
  rw [hDB]
  rw [LookupTable.meanTofRows_piecesOf sim simDist κ _ _ _ _ r _ hr (by omega) hn]

/-- Witness for C8 at one neutron, `Lmin = 0`, `Lmax = 1`, resolution 1. -/
theorem claim8_chunked_equals_onepass_witness :
    ((0 : ℚ) < 1 ∧ (0 : ℚ) ≤ 1 ∧ ([⟨1, 1, 1, 1⟩] : List LookupTable.SimEvent) ≠ [])
    ∧ LookupTable.computeTofLookupTable [⟨1, 1, 1, 1⟩] 0 1 0 1 1 1 1 1 1
        = LookupTable.computeTofLookupTableOnePass [⟨1, 1, 1, 1⟩] 0 1 0 1 1 1 1 1 1 :=
  ⟨⟨by norm_num, by norm_num, by simp⟩,
    claim8_chunked_equals_onepass [⟨1, 1, 1, 1⟩] 0 1 0 1 1 1 1 1 1
      (by norm_num) (by norm_num) (by simp)⟩

/-- C2: for every built lookup table, the last `event_time_offset` column is
an exact copy of the first (cell values, variances and NaN-masked state, for
every distance bin), the first `event_time_offset` coordinate is exactly `0`
and the last is exactly `frame_period = pulse_period * pulse_stride`. -/
theorem claim2_periodic_boundary (sim : List LookupTable.SimEvent)
    (simDist κ lmin lmax r timeRes pp : ℚ) (stride : ℕ) (thresh : ℚ) :
    (∀ row ∈ (LookupTable.computeTofLookupTable sim simDist κ lmin lmax r timeRes pp
        stride thresh).rows, row.getLast? = row.head?)
    ∧ (LookupTable.computeTofLookupTable sim simDist κ lmin lmax r timeRes pp
        stride thresh).etoCoords.head? = some 0
    ∧ (LookupTable.computeTofLookupTable sim simDist κ lmin lmax r timeRes pp
        stride thresh).etoCoords.getLast? = some (pp * stride) := by
  simp only [LookupTable.computeTofLookupTable, LookupTable.tableFromPieces]
  refine ⟨?_, ?_, ?_⟩
  · intro row hrow
    rw [List.mem_map] at hrow
    obtain ⟨row1, h1, rfl⟩ := hrow
    rw [List.mem_map] at h1
    obtain ⟨row0, h0, rfl⟩ := h1
    have hlen0 : row0.length = (⌊pp * (stride : ℚ) / timeRes⌋).toNat + 1 := by
      rw [List.mem_flatMap] at h0
      obtain ⟨e, _, h0'⟩ := h0
      unfold LookupTable.meanTofRows at h0'
      rw [List.mem_map] at h0'
      obtain ⟨p, _, rfl⟩ := h0'
      unfold LookupTable.timeBinnedCells
      rw [List.length_map, LookupTable.adjacentPairs_length]
      unfold LookupTable.timeBinsOf
      rw [LookupTable.apList_length]
      omega
    obtain ⟨c, rest, rfl⟩ : ∃ c rest, row0 = c :: rest := by
      cases row0 with
      | nil => simp at hlen0
      | cons c rest => exact ⟨c, rest, rfl⟩
    rw [show (c :: rest).take 1 = [c] from rfl, List.map_append]
    simp only [List.map_cons, List.map_nil]
    rw [List.getLast?_concat]
    simp
  · unfold LookupTable.timeBinsOf
    rw [LookupTable.midpointsQ_apList, List.head?_append,
      LookupTable.apList_head? _ _ _ (Nat.succ_pos _)]
    simp
  · rw [List.getLast?_concat]

namespace LookupTable

theorem distCoords_char (sim : List SimEvent)
    (simDist κ lmin lmax r timeRes pp : ℚ) (stride : ℕ) (thresh : ℚ)
    (hr : 0 < r) (hlm : lmin ≤ lmax) (hsim : sim ≠ []) :
    (computeTofLookupTable sim simDist κ lmin lmax r timeRes pp stride thresh).distCoords
      = apList (lmin - 3 * r / 2) r ((⌈(lmax - lmin) / r⌉).toNat + 3) := by
  simp only [computeTofLookupTable, tableFromPieces]
  have hn : 0 < sim.length := List.length_pos.mpr hsim
  have hDB := distanceBins_eq lmin lmax simDist r hr hlm
  have hlen2 : 2 ≤ (distanceBinsOf lmin lmax simDist r).length := by
    rw [hDB, apList_length]
    omega
  rw [joinEdges_piecesOf _ _ hlen2 hn, hDB]
  rw [show (⌈(lmax - lmin) / r⌉).toNat + 4 = ((⌈(lmax - lmin) / r⌉).toNat + 3) + 1 from rfl]
  rw [midpointsQ_apList, apList_map_add]
  congr 1
  ring

end LookupTable

/-- C3 counterexample: with `Lmin = 0`, `Lmax = 1`, resolution `r = 1` (and
simulation distance 0), the built table's distance axis ends at `3/2`, which
is strictly below `Lmax + r = 2`: the upper padding margin is only half a
resolution step, not a full one as claimed. -/
theorem claim3_counterexample :
    (LookupTable.computeTofLookupTable [⟨1, 1, 1, 1⟩] 0 1 0 1 1 1 1 1 1).distCoords.getLast?
      = some (3 / 2)
    ∧ ¬ ((1 : ℚ) + 1 ≤ 3 / 2) := by
  constructor
  · rw [LookupTable.distCoords_char [⟨1, 1, 1, 1⟩] 0 1 0 1 1 1 1 1 1
      (by norm_num) (by norm_num) (by simp)]
    have h1 : ((1 : ℚ) - 0) / 1 = 1 := by norm_num
    have hceil : (⌈((1 : ℚ) - 0) / 1⌉).toNat = 1 := by
      rw [h1, Int.ceil_one]
      rfl
    rw [hceil, show (1 : ℕ) + 3 = 3 + 1 from rfl, LookupTable.apList_getLast?]
    push_cast
    norm_num
  · norm_num

/-- C3 amended: for every `LtotalRange = (Lmin, Lmax)` with `Lmin ≤ Lmax` and
positive distance resolution `r`, the table's distance axis strictly contains
`[Lmin, Lmax]`: the first distance coordinate is `≤ Lmin - r` (the lower
margin is 1.5 resolution steps) and the last is `≥ Lmax + r / 2` (the upper
margin is at least half a resolution step — not a full one); the degenerate
case `Lmin = Lmax` still yields a table at least two distance bins wide. -/
theorem claim3_amended_padding (sim : List LookupTable.SimEvent)
    (simDist κ lmin lmax r timeRes pp : ℚ) (stride : ℕ) (thresh : ℚ)
    (hr : 0 < r) (hlm : lmin ≤ lmax) (hsim : sim ≠ []) :
    (∃ a, (LookupTable.computeTofLookupTable sim simDist κ lmin lmax r timeRes pp stride
        thresh).distCoords.head? = some a ∧ a ≤ lmin - r)
    ∧ (∃ b, (LookupTable.computeTofLookupTable sim simDist κ lmin lmax r timeRes pp stride
        thresh).distCoords.getLast? = some b ∧ lmax + r / 2 ≤ b)
    ∧ 2 ≤ (LookupTable.computeTofLookupTable sim simDist κ lmin lmax r timeRes pp stride
        thresh).distCoords.length := by
  rw [LookupTable.distCoords_char sim simDist κ lmin lmax r timeRes pp stride thresh
    hr hlm hsim]
  set C := (⌈(lmax - lmin) / r⌉).toNat with hC
  have hnn : (0 : ℤ) ≤ ⌈(lmax - lmin) / r⌉ :=
    Int.ceil_nonneg (div_nonneg (by linarith) hr.le)
  have hC0 : (lmax - lmin) / r ≤ (C : ℚ) := by
    rw [hC]
    have hcast : ((⌈(lmax - lmin) / r⌉.toNat : ℕ) : ℚ) = ((⌈(lmax - lmin) / r⌉ : ℤ) : ℚ) := by
      rw [← Int.toNat_of_nonneg hnn]
      push_cast
      rw [Int.toNat_of_nonneg hnn]
    rw [hcast]
    exact_mod_cast Int.le_ceil _
  have hCr : lmax - lmin ≤ (C : ℚ) * r := (div_le_iff hr).mp hC0
  refine ⟨⟨lmin - 3 * r / 2, ?_, by linarith⟩,
    ⟨lmin - 3 * r / 2 + ((C + 2 : ℕ) : ℚ) * r, ?_, ?_⟩, ?_⟩
  · exact LookupTable.apList_head? _ _ _ (by omega)
  · rw [show C + 3 = (C + 2) + 1 from rfl]
    exact LookupTable.apList_getLast? _ _ _
  · push_cast
    linarith
  · rw [LookupTable.apList_length]
    omega

/-- Witness for C3 amended at `Lmin = 0`, `Lmax = 1`, `r = 1`. -/
theorem claim3_amended_padding_witness :
    ((0 : ℚ) < 1 ∧ (0 : ℚ) ≤ 1 ∧ ([⟨1, 1, 1, 1⟩] : List LookupTable.SimEvent) ≠ [])
    ∧ ((∃ a, (LookupTable.computeTofLookupTable [⟨1, 1, 1, 1⟩] 0 1 0 1 1 1 1 1
          1).distCoords.head? = some a ∧ a ≤ 0 - 1)
      ∧ (∃ b, (LookupTable.computeTofLookupTable [⟨1, 1, 1, 1⟩] 0 1 0 1 1 1 1 1
          1).distCoords.getLast? = some b ∧ 1 + 1 / 2 ≤ b)
      ∧ 2 ≤ (LookupTable.computeTofLookupTable [⟨1, 1, 1, 1⟩] 0 1 0 1 1 1 1 1
          1).distCoords.length) :=
  ⟨⟨by norm_num, by norm_num, by simp⟩,
    claim3_amended_padding [⟨1, 1, 1, 1⟩] 0 1 0 1 1 1 1 1 1
      (by norm_num) (by norm_num) (by simp)⟩

namespace TimeOfFlight

/-- Interval index used by scipy's `RegularGridInterpolator._find_indices`:
`np.searchsorted(grid, x, side='left') - 1`, clipped to `[0, len(grid) - 2]`.
For a strictly increasing grid, `searchsorted(..., side='left')` is the number
of grid points strictly below `x`. -/
def gridIdx (grid : List ℚ) (x : ℚ) : ℕ :=
  min (grid.countP (fun g => decide (g < x)) - 1) (grid.length - 2)

/-- One query of `RegularGridInterpolator(..., method="linear",
bounds_error=False)` with the default NaN `fill_value`, as constructed in
`time_of_flight_data` (toa_to_tof.py lines 350-358): out-of-bounds queries
(`x < grid[0]` or `x > grid[-1]` on either axis) are filled with NaN;
in-bounds queries are the bilinear combination of the four corners of the
enclosing cell.  Float arithmetic gives `0 * NaN = NaN`, so a NaN corner makes
the whole combination NaN (`none`). -/
def interpQuery (gx gy : List ℚ) (tab : ℕ → ℕ → Option ℚ) (x y : ℚ) : Option ℚ :=
  if x < gx.getD 0 0 ∨ gx.getD (gx.length - 1) 0 < x
      ∨ y < gy.getD 0 0 ∨ gy.getD (gy.length - 1) 0 < y then none
  else
    let i := gridIdx gx x
    let j := gridIdx gy y
    let tx := (x - gx.getD i 0) / (gx.getD (i + 1) 0 - gx.getD i 0)
    let ty := (y - gy.getD j 0) / (gy.getD (j + 1) 0 - gy.getD j 0)
    match tab i j, tab (i + 1) j, tab i (j + 1), tab (i + 1) (j + 1) with
    | some c00, some c10, some c01, some c11 =>
      some ((1 - tx) * (1 - ty) * c00 + tx * (1 - ty) * c10
        + (1 - tx) * ty * c01 + tx * ty * c11)
    | _, _, _, _ => none

/-- The per-event numeric core of `time_of_flight_data` (toa_to_tof.py lines
337-388): interpolate the lookup table at every event's (frame-folded arrival
time, Ltotal) pair; the results become the events' `tof` coordinate. -/
def timeOfFlightData (gx gy : List ℚ) (tab : ℕ → ℕ → Option ℚ)
    (events : List (ℚ × ℚ)) : List (Option ℚ) :=
  events.map (fun ev => interpQuery gx gy tab ev.1 ev.2)

theorem sorted_countP_lt (x : ℚ) :
    ∀ l : List ℚ, List.Pairwise (· < ·) l →
    ∀ k : ℕ, k < l.length →
    (l.getD k 0 < x ↔ k < l.countP (fun g => decide (g < x))) := by
  intro l
  induction l with
  | nil => intro _ k hk; simp at hk
  | cons g t ih =>
    intro hs k hk
    rw [List.pairwise_cons] at hs
    obtain ⟨hgt, hst⟩ := hs
    have hzero : ¬ g < x → t.countP (fun g => decide (g < x)) = 0 := by
      intro hgx
      rw [List.countP_eq_zero]
      intro a ha
      simp only [decide_eq_true_eq]
      intro hax
      exact hgx (lt_trans (hgt a ha) hax)
    cases k with
    | zero =>
      rw [List.getD_cons_zero, List.countP_cons]
      by_cases hgx : g < x
      · simp [hgx]
      · rw [hzero hgx]
        simp [hgx]
    | succ k =>
      rw [List.getD_cons_succ, List.countP_cons]
      rw [List.length_cons] at hk
      have hk' : k < t.length := by omega
      rw [ih hst k hk']
      by_cases hgx : g < x
      · simp [hgx]
      · rw [hzero hgx]
        simp [hgx]

theorem gridIdx_bracket (grid : List ℚ) (x : ℚ)
    (hg : List.Pairwise (· < ·) grid) (hl : 2 ≤ grid.length)
    (hlo : grid.getD 0 0 ≤ x) (hhi : x ≤ grid.getD (grid.length - 1) 0) :
    gridIdx grid x + 1 < grid.length
    ∧ grid.getD (gridIdx grid x) 0 ≤ x
    ∧ x ≤ grid.getD (gridIdx grid x + 1) 0 := by
  set c := grid.countP (fun g => decide (g < x)) with hc
  have hcle : c ≤ grid.length - 1 := by
    by_contra hgt
    push_neg at hgt
    have hlast : grid.getD (grid.length - 1) 0 < x := by
      rw [sorted_countP_lt x grid hg (grid.length - 1) (by omega)]
      omega
    linarith
  cases Nat.eq_zero_or_pos c with
  | inl hc0 =>
    have hidx : gridIdx grid x = 0 := by
      unfold gridIdx
      rw [← hc, hc0]
      simp
    rw [hidx]
    refine ⟨by omega, hlo, ?_⟩
    have := (sorted_countP_lt x grid hg 1 (by omega)).not
    rw [← hc, hc0] at this
    have h1 : ¬ grid.getD 1 0 < x := by
      rw [this]
      omega
    linarith
  | inr hcpos =>
    have hidx : gridIdx grid x = c - 1 := by
      unfold gridIdx
      rw [← hc]
      omega
    rw [hidx]
    have hsub : c - 1 + 1 = c := by omega
    rw [hsub]
    refine ⟨by omega, ?_, ?_⟩
    · have := (sorted_countP_lt x grid hg (c - 1) (by omega)).mpr (by omega)
      linarith
    · have := (sorted_countP_lt x grid hg c (by omega)).not
      rw [← hc] at this
      have hcc : ¬ grid.getD c 0 < x := by
        rw [this]
        omega
      linarith

end TimeOfFlight

/-- C9: for every event whose query point (folded arrival time, Ltotal) lies
outside the lookup table's grid on either axis, `time_of_flight_data`'s
interpolation assigns NaN (`none`) to that event — a total function, no
exception, no wrapping; every in-range query uses the bracketing cell of the
grid (the enclosing pair of coordinates on each axis) and yields the bilinear
combination of its four (possibly NaN-masked) corner values, the result being
NaN exactly when one of those corners is NaN. -/
theorem claim9_interpolation (gx gy : List ℚ) (tab : ℕ → ℕ → Option ℚ)
    (events : List (ℚ × ℚ)) (x y : ℚ)
    (hgx : List.Pairwise (· < ·) gx) (hgy : List.Pairwise (· < ·) gy)
    (hlx : 2 ≤ gx.length) (hly : 2 ≤ gy.length) (hev : (x, y) ∈ events) :
    TimeOfFlight.interpQuery gx gy tab x y ∈ TimeOfFlight.timeOfFlightData gx gy tab events
    ∧ ((x < gx.getD 0 0 ∨ gx.getD (gx.length - 1) 0 < x
        ∨ y < gy.getD 0 0 ∨ gy.getD (gy.length - 1) 0 < y) →
      TimeOfFlight.interpQuery gx gy tab x y = none)
    ∧ (gx.getD 0 0 ≤ x → x ≤ gx.getD (gx.length - 1) 0 →
       gy.getD 0 0 ≤ y → y ≤ gy.getD (gy.length - 1) 0 →
      TimeOfFlight.gridIdx gx x + 1 < gx.length
      ∧ TimeOfFlight.gridIdx gy y + 1 < gy.length
      ∧ gx.getD (TimeOfFlight.gridIdx gx x) 0 ≤ x
      ∧ x ≤ gx.getD (TimeOfFlight.gridIdx gx x + 1) 0
      ∧ gy.getD (TimeOfFlight.gridIdx gy y) 0 ≤ y
      ∧ y ≤ gy.getD (TimeOfFlight.gridIdx gy y + 1) 0
      ∧ (TimeOfFlight.interpQuery gx gy tab x y = none ↔
          (tab (TimeOfFlight.gridIdx gx x) (TimeOfFlight.gridIdx gy y) = none
          ∨ tab (TimeOfFlight.gridIdx gx x + 1) (TimeOfFlight.gridIdx gy y) = none
          ∨ tab (TimeOfFlight.gridIdx gx x) (TimeOfFlight.gridIdx gy y + 1) = none
          ∨ tab (TimeOfFlight.gridIdx gx x + 1) (TimeOfFlight.gridIdx gy y + 1) = none))
      ∧ ∀ c00 c10 c01 c11 : ℚ,
          tab (TimeOfFlight.gridIdx gx x) (TimeOfFlight.gridIdx gy y) = some c00 →
          tab (TimeOfFlight.gridIdx gx x + 1) (TimeOfFlight.gridIdx gy y) = some c10 →
          tab (TimeOfFlight.gridIdx gx x) (TimeOfFlight.gridIdx gy y + 1) = some c01 →
          tab (TimeOfFlight.gridIdx gx x + 1) (TimeOfFlight.gridIdx gy y + 1) = some c11 →
          TimeOfFlight.interpQuery gx gy tab x y
            = some ((1 - (x - gx.getD (TimeOfFlight.gridIdx gx x) 0)
                  / (gx.getD (TimeOfFlight.gridIdx gx x + 1) 0
                    - gx.getD (TimeOfFlight.gridIdx gx x) 0))
                * (1 - (y - gy.getD (TimeOfFlight.gridIdx gy y) 0)
                  / (gy.getD (TimeOfFlight.gridIdx gy y + 1) 0
                    - gy.getD (TimeOfFlight.gridIdx gy y) 0)) * c00
              + (x - gx.getD (TimeOfFlight.gridIdx gx x) 0)
                  / (gx.getD (TimeOfFlight.gridIdx gx x + 1) 0
                    - gx.getD (TimeOfFlight.gridIdx gx x) 0)
                * (1 - (y - gy.getD (TimeOfFlight.gridIdx gy y) 0)
                  / (gy.getD (TimeOfFlight.gridIdx gy y + 1) 0
                    - gy.getD (TimeOfFlight.gridIdx gy y) 0)) * c10
              + (1 - (x - gx.getD (TimeOfFlight.gridIdx gx x) 0)
                  / (gx.getD (TimeOfFlight.gridIdx gx x + 1) 0
                    - gx.getD (TimeOfFlight.gridIdx gx x) 0))
                * ((y - gy.getD (TimeOfFlight.gridIdx gy y) 0)
                  / (gy.getD (TimeOfFlight.gridIdx gy y + 1) 0
                    - gy.getD (TimeOfFlight.gridIdx gy y) 0)) * c01
              + (x - gx.getD (TimeOfFlight.gridIdx gx x) 0)
                  / (gx.getD (TimeOfFlight.gridIdx gx x + 1) 0
                    - gx.getD (TimeOfFlight.gridIdx gx x) 0)
                * ((y - gy.getD (TimeOfFlight.gridIdx gy y) 0)
                  / (gy.getD (TimeOfFlight.gridIdx gy y + 1) 0
                    - gy.getD (TimeOfFlight.gridIdx gy y) 0)) * c11)) := by
  refine ⟨?_, ?_, ?_⟩
  · unfold TimeOfFlight.timeOfFlightData
    exact List.mem_map.mpr ⟨(x, y), hev, rfl⟩
  · intro hout
    unfold TimeOfFlight.interpQuery
    rw [if_pos hout]
  · intro hx0 hx1 hy0 hy1
    have hbx := TimeOfFlight.gridIdx_bracket gx x hgx hlx hx0 hx1
    have hby := TimeOfFlight.gridIdx_bracket gy y hgy hly hy0 hy1
    have hin : ¬ (x < gx.getD 0 0 ∨ gx.getD (gx.length - 1) 0 < x
        ∨ y < gy.getD 0 0 ∨ gy.getD (gy.length - 1) 0 < y) := by
      push_neg
      exact ⟨hx0, hx1, hy0, hy1⟩
    refine ⟨hbx.1, hby.1, hbx.2.1, hbx.2.2, hby.2.1, hby.2.2, ?_, ?_⟩
    · unfold TimeOfFlight.interpQuery
      rw [if_neg hin]
      cases h00 : tab (TimeOfFlight.gridIdx gx x) (TimeOfFlight.gridIdx gy y) with
      | none => simp [h00]
      | some c00 =>
        cases h10 : tab (TimeOfFlight.gridIdx gx x + 1) (TimeOfFlight.gridIdx gy y) with
        | none => simp [h00, h10]
        | some c10 =>
          cases h01 : tab (TimeOfFlight.gridIdx gx x) (TimeOfFlight.gridIdx gy y + 1) with
          | none => simp [h00, h10, h01]
          | some c01 =>
            cases h11 : tab (TimeOfFlight.gridIdx gx x + 1)
                (TimeOfFlight.gridIdx gy y + 1) with
            | none => simp [h00, h10, h01, h11]
            | some c11 => simp [h00, h10, h01, h11]
    · intro c00 c10 c01 c11 h00 h10 h01 h11
      unfold TimeOfFlight.interpQuery
      rw [if_neg hin]
      simp only [h00, h10, h01, h11]

/-- Witness for C9 at the grid `gx = gy = [0, 1]`, an all-ones table and the
event `(1/2, 1/2)`. -/
theorem claim9_interpolation_witness :
    (List.Pairwise (· < ·) ([0, 1] : List ℚ) ∧ 2 ≤ ([0, 1] : List ℚ).length
      ∧ ((1 : ℚ) / 2, (1 : ℚ) / 2) ∈ [((1 : ℚ) / 2, (1 : ℚ) / 2)])
    ∧ TimeOfFlight.interpQuery [0, 1] [0, 1] (fun _ _ => some 1) (1 / 2) (1 / 2)
        ∈ TimeOfFlight.timeOfFlightData [0, 1] [0, 1] (fun _ _ => some 1)
            [((1 : ℚ) / 2, (1 : ℚ) / 2)] :=
  ⟨⟨by norm_num [List.pairwise_cons], by norm_num, by simp⟩,
    (claim9_interpolation [0, 1] [0, 1] (fun _ _ => some 1) [((1 : ℚ) / 2, (1 : ℚ) / 2)]
      (1 / 2) (1 / 2) (by norm_num [List.pairwise_cons]) (by norm_num [List.pairwise_cons])
      (by norm_num) (by norm_num) (by simp)).1⟩

namespace StreamProcessor

/-- One provider node of the (sciline) workflow graph wrapped by
`StreamProcessor`: its key, the keys of its parameters and the provider
function.  The graph is the target-restricted workflow; a well-formed
workflow lists parents before children (checked by `topoOK`). -/
structure GNode where
  key : ℕ
  parents : List ℕ
  f : List ℚ → ℚ

/-- A workflow graph: nodes in topological order. -/
abbrev Graph := List GNode

/-- Stored values (parameters set with `workflow[key] = value`); the most
recent write is listed first and wins on lookup. -/
abbrev Store := List (ℕ × ℚ)

def lookupStore (st : Store) (k : ℕ) : Option ℚ :=
  ((st : List (ℕ × ℚ)).find? (fun e => e.1 == k)).map (fun e => e.2)

def storeKeys (st : Store) : List ℕ := (st : List (ℕ × ℚ)).map (fun e => e.1)

def graphKeys (g : Graph) : List ℕ := (g : List GNode).map (fun n => n.key)

/-- Parents appear as keys of strictly earlier nodes. -/
def topoOKAux (seen : List ℕ) : List GNode → Bool
  | [] => true
  | n :: rest =>
    n.parents.all (fun p => decide (p ∈ seen)) && topoOKAux (seen ++ [n.key]) rest

def topoOK (g : Graph) : Bool := topoOKAux [] g

/-- Keys a `Pipeline.compute(targets)` call must evaluate: the targets and,
transitively, the parents of every needed key that is not a stored parameter
(stored keys cut the traversal); one backward pass over the topologically
ordered node list. -/
def needStep (stored : List ℕ) (n : GNode) (acc : List ℕ) : List ℕ :=
  if n.key ∈ acc ∧ n.key ∉ stored then acc ++ n.parents else acc

def neededKeys (g : Graph) (stored : List ℕ) (targets : List ℕ) : List ℕ :=
  (g : List GNode).foldr (needStep stored) targets

/-- Keys whose provider actually runs during `compute(targets)`: needed and
not stored; the scheduler evaluates each such node exactly once per call. -/
def evalTrace (g : Graph) (stored : List ℕ) (targets : List ℕ) : List ℕ :=
  ((g : List GNode).filter
    (fun n => decide (n.key ∈ neededKeys g stored targets ∧ n.key ∉ stored))).map
    (fun n => n.key)

/-- Node values by a forward pass in topological order: a stored value wins
over the provider; a provider is applied to its parents' values.  (The `0`
default for an absent parent is unreachable in well-formed graphs.) -/
def evalEnv (g : Graph) (stored : Store) : Store :=
  (g : List GNode).foldl
    (fun env n =>
      match lookupStore stored n.key with
      | some v => env ++ [(n.key, v)]
      | none =>
        env ++ [(n.key, n.f (n.parents.map (fun p => (lookupStore env p).getD 0)))])
    []

def computeVal (g : Graph) (stored : Store) (k : ℕ) : ℚ :=
  (lookupStore (evalEnv g stored) k).getD 0

/-- Forward reachability closure (`nx.descendants` plus the seeds themselves,
as in `_find_descendants`, streaming.py lines 303-310). -/
def descStep (acc : List ℕ) (n : GNode) : List ℕ :=
  if n.key ∈ acc ∨ n.parents.any (fun p => decide (p ∈ acc)) then acc ++ [n.key] else acc

def descFold (g : Graph) (seeds : List ℕ) : List ℕ :=
  (g : List GNode).foldl descStep seeds

/-- Backward reachability (`nx.ancestors` plus the target itself): one
backward pass adding the parents of every reached key. -/
def ancStep (n : GNode) (acc : List ℕ) : List ℕ :=
  if n.key ∈ acc then acc ++ n.parents else acc

def ancFold (g : Graph) (target : ℕ) : List ℕ :=
  (g : List GNode).foldr ancStep [target]

/-- `nx.ancestors(graph, acc_key) ∩ dynamic_keys` (streaming.py lines
200-206); `nx.ancestors` excludes the key itself. -/
def accDeps (g : Graph) (dynamicKeys : List ℕ) (accKey : ℕ) : List ℕ :=
  dynamicKeys.filter (fun d => decide (d ∈ ancFold g accKey ∧ d ≠ accKey))

/-- Construction inputs of `StreamProcessor.__init__`: the target-restricted
workflow graph, its stored (static) parameters, the dynamic keys, the target
keys and the accumulator keys (tuple form: one `EternalAccumulator` each). -/
structure SPConfig where
  graph : Graph
  params : Store
  dynamicKeys : List ℕ
  targetKeys : List ℕ
  accKeys : List ℕ

/-- `_find_descendants(workflow, dynamic_keys)` (streaming.py line 187). -/
def dynDescendants (cfg : SPConfig) : List ℕ := descFold cfg.graph cfg.dynamicKeys

/-- `_find_parents(workflow, nodes) - nodes` (streaming.py line 188): the
static frontier whose values are frozen as constants. -/
def staticFrontier (cfg : SPConfig) : List ℕ :=
  (((cfg.graph : List GNode).filter
      (fun n => decide (n.key ∈ dynDescendants cfg))).flatMap
    (fun n => n.parents)).filter (fun p => decide (p ∉ dynDescendants cfg))

/-- Providers evaluated eagerly at construction time by
`base_workflow.compute(parents)` (streaming.py line 189). -/
def constructionTrace (cfg : SPConfig) : List ℕ :=
  evalTrace cfg.graph (storeKeys cfg.params) (staticFrontier cfg)

/-- Mutable state of a `StreamProcessor`: the process-chunk workflow's stored
values and each kept accumulator's history of pushed values (oldest first). -/
structure SPState where
  cfg : SPConfig
  pcStored : Store
  accHist : List (ℕ × List ℚ)

/-- `StreamProcessor.__init__` (streaming.py lines 144-223): store a `None`
placeholder (modelled by `0`, never read on computed paths) for every dynamic
key, precompute the static frontier's values via the base workflow and freeze
them, and keep only accumulators whose key is in the graph. -/
def initState (cfg : SPConfig) : SPState :=
  { cfg := cfg
    pcStored :=
      (staticFrontier cfg).map (fun k => (k, computeVal cfg.graph cfg.params k))
        ++ cfg.dynamicKeys.map (fun d => (d, 0))
        ++ cfg.params
    accHist :=
      (cfg.accKeys.filter (fun k => decide (k ∈ graphKeys cfg.graph))).map
        (fun k => (k, [])) }

/-- `StreamProcessor.accumulate` (streaming.py lines 246-287).  Returns the
new state, the raised error if any (`some msg` models the `ValueError`; both
checks precede every mutation in the source, so on error the input state is
returned untouched), the accumulator keys that received a push, and the keys
of the providers evaluated while recomputing them. -/
def accumulate (s : SPState) (chunks : List (ℕ × ℚ)) :
    SPState × Option String × List ℕ × List ℕ :=
  let chunkKeys := chunks.map (fun c => c.1)
  if ∃ k ∈ chunkKeys, k ∉ s.cfg.dynamicKeys then
    (s, some "Can only update dynamic keys. Got non-dynamic keys", [], [])
  else if ∃ a ∈ s.accHist,
      ¬ (∀ d ∈ accDeps s.cfg.graph s.cfg.dynamicKeys a.1, d ∈ chunkKeys)
      ∧ ∃ d ∈ accDeps s.cfg.graph s.cfg.dynamicKeys a.1, d ∈ chunkKeys then
    (s, some "Accumulator requires dynamic keys not provided in the current chunk",
      [], [])
  else
    let toUpdate := (s.accHist.map (fun a => a.1)).filter
      (fun k => decide (∃ d ∈ accDeps s.cfg.graph s.cfg.dynamicKeys k, d ∈ chunkKeys))
    let stored' := chunks ++ s.pcStored
    let results := toUpdate.map (fun k => (k, computeVal s.cfg.graph stored' k))
    ({ s with
        pcStored := stored'
        accHist := s.accHist.map (fun a =>
          match results.find? (fun rkv => rkv.1 == a.1) with
          | some rkv => (a.1, a.2 ++ [rkv.2])
          | none => a) },
      none, toUpdate, evalTrace s.cfg.graph (storeKeys stored') toUpdate)

/-- A sequence of `accumulate` calls (a raised error leaves the state as it
was, like the Python exception). -/
def applyChunks (s : SPState) (chunkList : List (List (ℕ × ℚ))) : SPState :=
  chunkList.foldl (fun st ch => (accumulate st ch).1) s

/-- Graph reachability along provider edges (parent to child). -/
inductive Reaches (g : Graph) : ℕ → ℕ → Prop
  | refl (a : ℕ) : Reaches g a a
  | tail {a b c : ℕ} : Reaches g a b → (∃ n ∈ (g : List GNode), n.key = c ∧ b ∈ n.parents) →
      Reaches g a c

end StreamProcessor

namespace StreamProcessor

theorem find?_map_pair (f : ℕ → ℚ) (k : ℕ) :
    ∀ l : List ℕ,
    ((l.map (fun x => (x, f x))).find? (fun rkv => rkv.1 == k))
      = if k ∈ l then some (k, f k) else none := by
  intro l
  induction l with
  | nil => simp
  | cons x t ih =>
    simp only [List.map_cons]
    by_cases hx : x = k
    · subst hx
      rw [List.find?_cons_of_pos _ (by simp)]
      simp
    · rw [List.find?_cons_of_neg _ (by simp [hx])]
      rw [ih]
      by_cases hk : k ∈ t
      · rw [if_pos hk, if_pos (List.mem_cons_of_mem x hk)]
      · rw [if_neg hk, if_neg (by simp [hk, Ne.symm hx])]

theorem accumulate_eq (s : SPState) (chunks : List (ℕ × ℚ)) :
    accumulate s chunks =
      if ∃ k ∈ chunks.map (fun c => c.1), k ∉ s.cfg.dynamicKeys then
        (s, some "Can only update dynamic keys. Got non-dynamic keys", [], [])
      else if ∃ a ∈ s.accHist,
          ¬ (∀ d ∈ accDeps s.cfg.graph s.cfg.dynamicKeys a.1,
              d ∈ chunks.map (fun c => c.1))
          ∧ ∃ d ∈ accDeps s.cfg.graph s.cfg.dynamicKeys a.1,
              d ∈ chunks.map (fun c => c.1) then
        (s, some "Accumulator requires dynamic keys not provided in the current chunk",
          [], [])
      else
        ({ cfg := s.cfg
           pcStored := chunks ++ s.pcStored
           accHist := s.accHist.map (fun a =>
             match (((s.accHist.map (fun a2 => a2.1)).filter
                   (fun k => decide (∃ d ∈ accDeps s.cfg.graph s.cfg.dynamicKeys k,
                     d ∈ chunks.map (fun c => c.1)))).map
                 (fun k => (k, computeVal s.cfg.graph (chunks ++ s.pcStored) k))).find?
                 (fun rkv => rkv.1 == a.1) with
             | some rkv => (a.1, a.2 ++ [rkv.2])
             | none => a) },
          none,
          (s.accHist.map (fun a => a.1)).filter
            (fun k => decide (∃ d ∈ accDeps s.cfg.graph s.cfg.dynamicKeys k,
              d ∈ chunks.map (fun c => c.1))),
          evalTrace s.cfg.graph (storeKeys (chunks ++ s.pcStored))
            ((s.accHist.map (fun a => a.1)).filter
              (fun k => decide (∃ d ∈ accDeps s.cfg.graph s.cfg.dynamicKeys k,
                d ∈ chunks.map (fun c => c.1))))) := rfl

end StreamProcessor



namespace StreamProcessor

/-- The push condition of the amended C5: a nonempty dynamic-dependency set
fully contained in the chunk's keys. -/
def pushCond (g : Graph) (dyn ck : List ℕ) (k : ℕ) : Prop :=
  accDeps g dyn k ≠ [] ∧ ∀ d ∈ accDeps g dyn k, d ∈ ck

instance pushCondDec (g : Graph) (dyn ck : List ℕ) (k : ℕ) :
    Decidable (pushCond g dyn ck k) :=
  inferInstanceAs (Decidable (accDeps g dyn k ≠ [] ∧ ∀ d ∈ accDeps g dyn k, d ∈ ck))

end StreamProcessor

/-- C5 amended: `accumulate(chunk)` raises a `ValueError` exactly when the
chunk supplies a key outside the declared dynamic-key set, or some kept
accumulator's dynamic-dependency set is neither disjoint from nor fully
contained in the chunk's keys; in either error case it raises before any
value is pushed and before any workflow value is stored, leaving the whole
processor state untouched.  Otherwise, exactly the accumulators whose
dynamic-dependency set is nonempty and fully contained in the chunk's keys
receive one push of their recomputed upstream result (an accumulator with an
empty dynamic-dependency set is skipped: the code skips every accumulator
disjoint from the chunk, and the empty set is disjoint from everything). -/
theorem claim5_amended_accumulate (s : StreamProcessor.SPState)
    (chunks : List (ℕ × ℚ)) :
    ((StreamProcessor.accumulate s chunks).2.1 ≠ none ↔
      ((∃ k ∈ chunks.map (fun c => c.1), k ∉ s.cfg.dynamicKeys)
      ∨ ∃ a ∈ s.accHist,
          ¬ (∀ d ∈ StreamProcessor.accDeps s.cfg.graph s.cfg.dynamicKeys a.1,
              d ∈ chunks.map (fun c => c.1))
          ∧ ∃ d ∈ StreamProcessor.accDeps s.cfg.graph s.cfg.dynamicKeys a.1,
              d ∈ chunks.map (fun c => c.1)))
    ∧ ((StreamProcessor.accumulate s chunks).2.1 ≠ none →
        (StreamProcessor.accumulate s chunks).1 = s)
    ∧ ((StreamProcessor.accumulate s chunks).2.1 = none →
        (StreamProcessor.accumulate s chunks).2.2.1
          = (s.accHist.map (fun a => a.1)).filter
              (fun k => decide (StreamProcessor.pushCond s.cfg.graph s.cfg.dynamicKeys
                (chunks.map (fun c => c.1)) k))
        ∧ (StreamProcessor.accumulate s chunks).1.accHist
          = s.accHist.map (fun a =>
              if StreamProcessor.pushCond s.cfg.graph s.cfg.dynamicKeys
                  (chunks.map (fun c => c.1)) a.1
              then (a.1, a.2 ++ [StreamProcessor.computeVal s.cfg.graph
                      (chunks ++ s.pcStored) a.1])
              else a)) := by
  rw [StreamProcessor.accumulate_eq]
  by_cases h1 : ∃ k ∈ chunks.map (fun c => c.1), k ∉ s.cfg.dynamicKeys
  · rw [if_pos h1]
    refine ⟨⟨fun _ => Or.inl h1, fun _ => by simp⟩, fun _ => rfl, fun hc => by simp at hc⟩
  · rw [if_neg h1]
    by_cases h2 : ∃ a ∈ s.accHist,
        ¬ (∀ d ∈ StreamProcessor.accDeps s.cfg.graph s.cfg.dynamicKeys a.1,
            d ∈ chunks.map (fun c => c.1))
        ∧ ∃ d ∈ StreamProcessor.accDeps s.cfg.graph s.cfg.dynamicKeys a.1,
            d ∈ chunks.map (fun c => c.1)
    · rw [if_pos h2]
      refine ⟨⟨fun _ => Or.inr h2, fun _ => by simp⟩, fun _ => rfl, fun hc => by simp at hc⟩
    · rw [if_neg h2]
      have hmemiff : ∀ a : ℕ × List ℚ, a ∈ s.accHist →
          ((∃ d ∈ StreamProcessor.accDeps s.cfg.graph s.cfg.dynamicKeys a.1,
              d ∈ chunks.map (fun c => c.1))
            ↔ StreamProcessor.pushCond s.cfg.graph s.cfg.dynamicKeys
                (chunks.map (fun c => c.1)) a.1) := by
        intro a ha
        push_neg at h2
        have hthis := h2 a ha
        unfold StreamProcessor.pushCond
        constructor
        · rintro ⟨d, hd, hdc⟩
          refine ⟨fun hnil => by rw [hnil] at hd; simp at hd, ?_⟩
          by_contra hnall
          push_neg at hnall
          obtain ⟨d2, hd2, hd2c⟩ := hnall
          exact (hthis ⟨d2, hd2, hd2c⟩ d hd) hdc
        · rintro ⟨hne, hall⟩
          obtain ⟨d, hd⟩ := List.exists_mem_of_ne_nil _ hne
          exact ⟨d, hd, hall d hd⟩
      refine ⟨⟨fun hc => absurd rfl hc, fun hor => absurd hor (not_or.mpr ⟨h1, h2⟩)⟩,
        fun hc => absurd rfl hc, fun _ => ⟨?_, ?_⟩⟩
      · exact List.filter_congr (fun k hk => by
          rw [decide_eq_decide]
          obtain ⟨a, ha, rfl⟩ := List.mem_map.mp hk
          exact hmemiff a ha)
      · refine List.map_congr_left (fun a ha => ?_)
        rw [StreamProcessor.find?_map_pair]
        by_cases hcond : StreamProcessor.pushCond s.cfg.graph s.cfg.dynamicKeys
            (chunks.map (fun c => c.1)) a.1
        · have hmem : a.1 ∈ (s.accHist.map (fun a2 => a2.1)).filter
              (fun k => decide (∃ d ∈ StreamProcessor.accDeps s.cfg.graph
                s.cfg.dynamicKeys k, d ∈ chunks.map (fun c => c.1))) := by
            rw [List.mem_filter]
            refine ⟨List.mem_map.mpr ⟨a, ha, rfl⟩, ?_⟩
            rw [decide_eq_true_eq]
            exact (hmemiff a ha).mpr hcond
          rw [if_pos hmem, if_pos hcond]
        · have hmem : a.1 ∉ (s.accHist.map (fun a2 => a2.1)).filter
              (fun k => decide (∃ d ∈ StreamProcessor.accDeps s.cfg.graph
                s.cfg.dynamicKeys k, d ∈ chunks.map (fun c => c.1))) := by
            rw [List.mem_filter]
            rintro ⟨hmm, hdec⟩
            rw [decide_eq_true_eq] at hdec
            exact hcond ((hmemiff a ha).mp hdec)
          rw [if_neg hmem, if_neg hcond]

namespace StreamProcessor

/-- A two-node demo pipeline: dynamic key `0` feeding an accumulator at key
`1` whose provider sums its parents' values. -/
def demoCfg : SPConfig :=
  ⟨[⟨0, [], fun _ => 0⟩, ⟨1, [0], fun l => l.foldl (fun x y => x + y) 0⟩],
    [], [0], [1], [1]⟩

/-- A pipeline whose accumulator at key `1` has no dynamic dependencies: key
`1` is a constant provider, unreachable from the dynamic key `0`. -/
def emptyDepsCfg : SPConfig :=
  ⟨[⟨0, [], fun _ => 0⟩, ⟨1, [], fun _ => 5⟩], [], [0], [1], [1]⟩

end StreamProcessor

theorem claim5_amended_accumulate_witness :
    ((StreamProcessor.accumulate (StreamProcessor.initState StreamProcessor.demoCfg)
        [(5, 3)]).1
      = StreamProcessor.initState StreamProcessor.demoCfg)
    ∧ ((StreamProcessor.accumulate (StreamProcessor.initState StreamProcessor.demoCfg)
        [(0, 3)]).2.2.1
      = (((StreamProcessor.initState StreamProcessor.demoCfg).accHist.map
            (fun a => a.1)).filter
          (fun k => decide (StreamProcessor.pushCond StreamProcessor.demoCfg.graph
            StreamProcessor.demoCfg.dynamicKeys
            ([((0 : ℕ), (3 : ℚ))].map (fun c => c.1)) k)))) :=
  ⟨(claim5_amended_accumulate _ _).2.1 (by decide),
    ((claim5_amended_accumulate _ _).2.2 (by decide)).1⟩

/-- C5 counterexample: in `emptyDepsCfg` the kept accumulator at key `1` has
an empty dynamic-dependency set, which is (vacuously) fully contained in the
keys of the chunk `{0: 3}`, so by the claim it should receive one push; but
`accumulate` raises no error, pushes to no accumulator and leaves the history
empty, because the code skips every accumulator whose dependency set is
disjoint from the chunk and the empty set is disjoint from everything. -/
theorem claim5_counterexample :
    StreamProcessor.accDeps StreamProcessor.emptyDepsCfg.graph
        StreamProcessor.emptyDepsCfg.dynamicKeys 1 = []
    ∧ (StreamProcessor.accumulate
        (StreamProcessor.initState StreamProcessor.emptyDepsCfg) [(0, 3)]).2.1 = none
    ∧ (StreamProcessor.accumulate
        (StreamProcessor.initState StreamProcessor.emptyDepsCfg) [(0, 3)]).2.2.1 = []
    ∧ (StreamProcessor.accumulate
        (StreamProcessor.initState StreamProcessor.emptyDepsCfg) [(0, 3)]).1.accHist
      = [(1, [])] := by
  exact ⟨by decide, by decide, by decide, by decide⟩

namespace StreamProcessor

theorem descStep_pos (B : List ℕ) (n : GNode)
    (h : n.key ∈ B ∨ n.parents.any (fun q => decide (q ∈ B)) = true) :
    descStep B n = B ++ [n.key] := by
  unfold descStep
  rw [if_pos h]

theorem descStep_neg (B : List ℕ) (n : GNode)
    (h : ¬ (n.key ∈ B ∨ n.parents.any (fun q => decide (q ∈ B)) = true)) :
    descStep B n = B := by
  unfold descStep
  rw [if_neg h]

theorem ancStep_pos (n : GNode) (B : List ℕ) (h : n.key ∈ B) :
    ancStep n B = B ++ n.parents := by
  unfold ancStep
  rw [if_pos h]

theorem ancStep_neg (n : GNode) (B : List ℕ) (h : n.key ∉ B) :
    ancStep n B = B := by
  unfold ancStep
  rw [if_neg h]

theorem needStep_pos (stored : List ℕ) (n : GNode) (B : List ℕ)
    (h : n.key ∈ B ∧ n.key ∉ stored) : needStep stored n B = B ++ n.parents := by
  unfold needStep
  rw [if_pos h]

theorem needStep_neg (stored : List ℕ) (n : GNode) (B : List ℕ)
    (h : ¬ (n.key ∈ B ∧ n.key ∉ stored)) : needStep stored n B = B := by
  unfold needStep
  rw [if_neg h]

theorem mem_foldl_descStep (l : List GNode) :
    ∀ (acc : List ℕ) (x : ℕ), x ∈ acc → x ∈ l.foldl descStep acc := by
  induction l with
  | nil => intro acc x hx; simpa using hx
  | cons n t ih =>
    intro acc x hx
    rw [List.foldl_cons]
    apply ih
    by_cases hc : n.key ∈ acc ∨ n.parents.any (fun q => decide (q ∈ acc)) = true
    · rw [descStep_pos acc n hc]
      exact List.mem_append_left _ hx
    · rw [descStep_neg acc n hc]
      exact hx

theorem foldl_descStep_mem (l : List GNode) :
    ∀ (acc : List ℕ) (x : ℕ), x ∈ l.foldl descStep acc →
      x ∈ acc ∨ x ∈ l.map (fun n => n.key) := by
  induction l with
  | nil => intro acc x hx; exact Or.inl (by simpa using hx)
  | cons n t ih =>
    intro acc x hx
    rw [List.foldl_cons] at hx
    rcases ih _ _ hx with h | h
    · by_cases hc : n.key ∈ acc ∨ n.parents.any (fun q => decide (q ∈ acc)) = true
      · rw [descStep_pos acc n hc] at h
        rcases List.mem_append.mp h with h' | h'
        · exact Or.inl h'
        · right
          rw [List.map_cons, List.mem_singleton.mp h']
          exact List.mem_cons_self _ _
      · rw [descStep_neg acc n hc] at h
        exact Or.inl h
    · right
      rw [List.map_cons]
      exact List.mem_cons_of_mem _ h

theorem topoOKAux_parents :
    ∀ (g1 : List GNode) (seen : List ℕ) (n : GNode) (g2 : List GNode),
      topoOKAux seen (g1 ++ n :: g2) = true →
      ∀ p ∈ n.parents, p ∈ seen ++ g1.map (fun m => m.key) := by
  intro g1
  induction g1 with
  | nil =>
    intro seen n g2 h p hp
    simp only [List.nil_append, topoOKAux, Bool.and_eq_true] at h
    have hd := List.all_eq_true.mp h.1 p hp
    simp only [List.map_nil, List.append_nil]
    exact of_decide_eq_true hd
  | cons m t ih =>
    intro seen n g2 h p hp
    simp only [List.cons_append, topoOKAux, Bool.and_eq_true] at h
    have := ih (seen ++ [m.key]) n g2 h.2 p hp
    simpa [List.append_assoc] using this

theorem descFold_closed (g : Graph) (S : List ℕ) (htopo : topoOK g = true)
    (hnd : (graphKeys g).Nodup) :
    ∀ n ∈ (g : List GNode), (∃ p ∈ n.parents, p ∈ descFold g S) →
      n.key ∈ descFold g S := by
  rintro n hn ⟨p, hpn, hpS⟩
  obtain ⟨g1, g2, rfl⟩ := List.append_of_mem hn
  have hpS' : p ∈ g2.foldl descStep (descStep (g1.foldl descStep S) n) := by
    simpa only [descFold, List.foldl_append, List.foldl_cons] using hpS
  rcases foldl_descStep_mem g2 _ p hpS' with hcase | hcase
  · by_cases hcond : n.key ∈ g1.foldl descStep S
        ∨ n.parents.any (fun q => decide (q ∈ g1.foldl descStep S)) = true
    · show n.key ∈ descFold (g1 ++ n :: g2) S
      simp only [descFold, List.foldl_append, List.foldl_cons]
      refine mem_foldl_descStep g2 _ _ ?_
      rw [descStep_pos _ n hcond]
      exact List.mem_append_right _ (by simp)
    · rw [descStep_neg _ n hcond] at hcase
      exact absurd (Or.inr (List.any_eq_true.mpr ⟨p, hpn, decide_eq_true hcase⟩)) hcond
  · exfalso
    have hp1 : p ∈ g1.map (fun m => m.key) := by
      simpa using topoOKAux_parents g1 [] n g2 htopo p hpn
    have hnd' : (g1.map (fun m => m.key)
        ++ n.key :: g2.map (fun m => m.key)).Nodup := by
      simpa only [graphKeys, List.map_append, List.map_cons] using hnd
    exact (List.nodup_append.mp hnd').2.2 hp1 (List.mem_cons_of_mem _ hcase)

theorem reaches_head {g : Graph} {a b c : ℕ} (hr : Reaches g b c) :
    (∃ n ∈ (g : List GNode), n.key = b ∧ a ∈ n.parents) → Reaches g a c := by
  induction hr with
  | refl => intro h; exact Reaches.tail (Reaches.refl a) h
  | tail h1 h2 ih => intro h; exact Reaches.tail (ih h) h2

theorem foldr_ancStep_reaches (g : Graph) (k : ℕ) :
    ∀ (l : List GNode), (∀ n ∈ l, n ∈ (g : List GNode)) →
    ∀ (acc : List ℕ), (∀ x ∈ acc, Reaches g x k) →
    ∀ x ∈ l.foldr ancStep acc, Reaches g x k := by
  intro l
  induction l with
  | nil => intro _ acc hacc x hx; exact hacc x (by simpa using hx)
  | cons n t ih =>
    intro hsub acc hacc x hx
    rw [List.foldr_cons] at hx
    have hinner : ∀ y ∈ t.foldr ancStep acc, Reaches g y k :=
      ih (fun m hm => hsub m (List.mem_cons_of_mem _ hm)) acc hacc
    by_cases hkey : n.key ∈ t.foldr ancStep acc
    · rw [ancStep_pos n _ hkey] at hx
      rcases List.mem_append.mp hx with h | h
      · exact hinner x h
      · exact reaches_head (hinner n.key hkey) ⟨n, hsub n (List.mem_cons_self n t), rfl, h⟩
    · rw [ancStep_neg n _ hkey] at hx
      exact hinner x hx

theorem ancFold_reaches (g : Graph) (k : ℕ) : ∀ x ∈ ancFold g k, Reaches g x k := by
  intro x hx
  refine foldr_ancStep_reaches g k g (fun n hn => hn) [k] ?_ x hx
  intro y hy
  rw [List.mem_singleton.mp hy]
  exact Reaches.refl k

theorem reaches_descFold (g : Graph) (S : List ℕ) (htopo : topoOK g = true)
    (hnd : (graphKeys g).Nodup) {d k : ℕ} (hr : Reaches g d k) :
    d ∈ S → k ∈ descFold g S := by
  induction hr with
  | refl => intro hd; exact mem_foldl_descStep g S _ hd
  | tail h1 h2 ih =>
    intro hd
    obtain ⟨n, hn, hkey, hbpar⟩ := h2
    have hb := ih hd
    have hcl := descFold_closed g S htopo hnd n hn ⟨_, hbpar, hb⟩
    rw [hkey] at hcl
    exact hcl

theorem foldr_needStep_sub (g : Graph) (stored : List ℕ) (D : List ℕ)
    (hclosed : ∀ n ∈ (g : List GNode), n.key ∈ D →
      ∀ p ∈ n.parents, p ∈ D ∨ p ∈ stored) :
    ∀ (l : List GNode), (∀ n ∈ l, n ∈ (g : List GNode)) →
    ∀ (targets : List ℕ), (∀ x ∈ targets, x ∈ D ∨ x ∈ stored) →
    ∀ x ∈ l.foldr (needStep stored) targets, x ∈ D ∨ x ∈ stored := by
  intro l
  induction l with
  | nil => intro _ targets ht x hx; exact ht x (by simpa using hx)
  | cons n t ih =>
    intro hsub targets ht x hx
    rw [List.foldr_cons] at hx
    have hinner := ih (fun m hm => hsub m (List.mem_cons_of_mem _ hm)) targets ht
    by_cases hcond : n.key ∈ t.foldr (needStep stored) targets ∧ n.key ∉ stored
    · rw [needStep_pos stored n _ hcond] at hx
      rcases List.mem_append.mp hx with h | h
      · exact hinner x h
      · rcases hinner n.key hcond.1 with hD | hst
        · exact hclosed n (hsub n (List.mem_cons_self n t)) hD x h
        · exact absurd hst hcond.2
    · rw [needStep_neg stored n _ hcond] at hx
      exact hinner x hx

theorem evalTrace_sub (g : Graph) (stored targets D : List ℕ)
    (hclosed : ∀ n ∈ (g : List GNode), n.key ∈ D →
      ∀ p ∈ n.parents, p ∈ D ∨ p ∈ stored)
    (ht : ∀ x ∈ targets, x ∈ D ∨ x ∈ stored) :
    ∀ x ∈ evalTrace g stored targets, x ∈ D := by
  intro x hx
  simp only [evalTrace] at hx
  obtain ⟨n, hnf, rfl⟩ := List.mem_map.mp hx
  obtain ⟨hn, hcond⟩ := List.mem_filter.mp hnf
  rw [decide_eq_true_eq] at hcond
  rcases foldr_needStep_sub g stored D hclosed g (fun _ h => h) targets ht n.key
    hcond.1 with h | h
  · exact h
  · exact absurd h hcond.2

theorem frontier_mem (cfg : SPConfig) (n : GNode)
    (hn : n ∈ (cfg.graph : List GNode)) (hkey : n.key ∈ dynDescendants cfg)
    (p : ℕ) (hp : p ∈ n.parents) (hpD : p ∉ dynDescendants cfg) :
    p ∈ staticFrontier cfg := by
  simp only [staticFrontier, List.mem_filter, List.mem_flatMap]
  exact ⟨⟨n, ⟨hn, by simpa using hkey⟩, hp⟩, by simpa using hpD⟩

theorem toUpdate_sub_desc (g : Graph) (dyn : List ℕ) (htopo : topoOK g = true)
    (hnd : (graphKeys g).Nodup) (k : ℕ) (ck : List ℕ)
    (h : ∃ d ∈ accDeps g dyn k, d ∈ ck) : k ∈ descFold g dyn := by
  obtain ⟨d, hd, -⟩ := h
  rw [accDeps, List.mem_filter] at hd
  obtain ⟨hddyn, hdec⟩ := hd
  rw [decide_eq_true_eq] at hdec
  exact reaches_descFold g dyn htopo hnd (ancFold_reaches g k d hdec.1) hddyn

theorem accumulate_cfg (s : SPState) (chunks : List (ℕ × ℚ)) :
    (accumulate s chunks).1.cfg = s.cfg := by
  rw [accumulate_eq]
  split
  · rfl
  · split
    · rfl
    · rfl

theorem accumulate_storeKeys (s : SPState) (chunks : List (ℕ × ℚ)) (x : ℕ)
    (hx : x ∈ storeKeys s.pcStored) :
    x ∈ storeKeys (accumulate s chunks).1.pcStored := by
  rw [accumulate_eq]
  split
  · exact hx
  · split
    · exact hx
    · simp only [storeKeys, List.map_append]
      exact List.mem_append_right _ hx

theorem applyChunks_cfg (cfg : SPConfig) :
    ∀ (L : List (List (ℕ × ℚ))) (s : SPState), s.cfg = cfg →
      (applyChunks s L).cfg = cfg := by
  intro L
  induction L with
  | nil => intro s hs; exact hs
  | cons c t ih =>
    intro s hs
    exact ih _ ((accumulate_cfg s c).trans hs)

theorem applyChunks_storeKeys (x : ℕ) :
    ∀ (L : List (List (ℕ × ℚ))) (s : SPState), x ∈ storeKeys s.pcStored →
      x ∈ storeKeys (applyChunks s L).pcStored := by
  intro L
  induction L with
  | nil => intro s hx; exact hx
  | cons c t ih => intro s hx; exact ih _ (accumulate_storeKeys s c x hx)

theorem initState_frontier_stored (cfg : SPConfig) (f : ℕ)
    (hf : f ∈ staticFrontier cfg) : f ∈ storeKeys (initState cfg).pcStored := by
  simp only [initState, storeKeys, List.map_append, List.map_map]
  refine List.mem_append_left _ (List.mem_append_left _ ?_)
  exact List.mem_map.mpr ⟨f, hf, rfl⟩

end StreamProcessor

namespace StreamProcessor

/-- A pipeline with a purely static target: dynamic key `0` feeds the
accumulated key `2`, while key `1` is a static constant target that does not
depend on any dynamic key and is not a parent of any dynamic descendant. -/
def staticTargetCfg : SPConfig :=
  ⟨[⟨0, [], fun _ => 0⟩, ⟨1, [], fun _ => 5⟩,
    ⟨2, [0], fun l => l.foldl (fun x y => x + y) 0⟩],
    [], [0], [1, 2], [2]⟩

end StreamProcessor

/-- C6 counterexample: in `staticTargetCfg`, key `1` is a graph node that
does not transitively depend on any dynamic key, yet it is evaluated zero
times (not once) at construction: `StreamProcessor.__init__` precomputes only
the static *frontier* (the direct static parents of dynamic descendants,
`_find_parents(workflow, nodes) - nodes`), and a static node that no dynamic
descendant needs — here a purely static target — is left for `finalize`.
This refutes "every graph node that does not transitively depend on any
dynamic key is evaluated exactly once, eagerly at construction time". -/
theorem claim6_counterexample :
    1 ∈ StreamProcessor.graphKeys StreamProcessor.staticTargetCfg.graph
    ∧ 1 ∉ StreamProcessor.dynDescendants StreamProcessor.staticTargetCfg
    ∧ (StreamProcessor.constructionTrace StreamProcessor.staticTargetCfg).count 1 = 0 := by
  exact ⟨by decide, by decide, by decide⟩

/-- C6 amended: for a well-formed workflow graph (topologically ordered,
duplicate-free keys), any static node — one that is not a descendant of a
dynamic key — is evaluated at most once at construction time (the
construction pass evaluates each provider at most once), and is never
evaluated by any later `accumulate` call, after any number of accumulated
chunks: every provider an `accumulate` call runs is a descendant of a
dynamic key, with the static frontier frozen as stored constants. -/
theorem claim6_amended_static_frozen (cfg : StreamProcessor.SPConfig)
    (htopo : StreamProcessor.topoOK cfg.graph = true)
    (hnd : (StreamProcessor.graphKeys cfg.graph).Nodup) (k : ℕ)
    (hk : k ∉ StreamProcessor.dynDescendants cfg)
    (chunkList : List (List (ℕ × ℚ))) (chunk : List (ℕ × ℚ)) :
    (StreamProcessor.constructionTrace cfg).count k ≤ 1
    ∧ k ∉ (StreamProcessor.accumulate
        (StreamProcessor.applyChunks (StreamProcessor.initState cfg) chunkList)
        chunk).2.2.2 := by
  constructor
  · have hsub : List.Sublist (StreamProcessor.constructionTrace cfg)
        (StreamProcessor.graphKeys cfg.graph) :=
      List.Sublist.map _ (List.filter_sublist _)
    exact List.nodup_iff_count_le_one.mp (List.Nodup.sublist hsub hnd) k
  · have hcfg : (StreamProcessor.applyChunks (StreamProcessor.initState cfg)
        chunkList).cfg = cfg :=
      StreamProcessor.applyChunks_cfg cfg chunkList (StreamProcessor.initState cfg) rfl
    rw [StreamProcessor.accumulate_eq, hcfg]
    split
    · simp
    · split
      · simp
      · intro hke
        refine hk (StreamProcessor.evalTrace_sub _ _ _
          (StreamProcessor.dynDescendants cfg) ?_ ?_ k hke)
        · intro n hn hkey p hp
          by_cases hpD : p ∈ StreamProcessor.dynDescendants cfg
          · exact Or.inl hpD
          · right
            have h1 := StreamProcessor.frontier_mem cfg n hn hkey p hp hpD
            have h2 := StreamProcessor.initState_frontier_stored cfg p h1
            have h3 := StreamProcessor.applyChunks_storeKeys p chunkList _ h2
            simp only [StreamProcessor.storeKeys, List.map_append]
            exact List.mem_append_right _ h3
        · intro t ht
          obtain ⟨-, hdec⟩ := List.mem_filter.mp ht
          rw [decide_eq_true_eq] at hdec
          exact Or.inl (StreamProcessor.toUpdate_sub_desc cfg.graph cfg.dynamicKeys
            htopo hnd t _ hdec)

theorem claim6_amended_static_frozen_witness :
    (StreamProcessor.constructionTrace StreamProcessor.demoCfg).count 5 ≤ 1
    ∧ 5 ∉ (StreamProcessor.accumulate
        (StreamProcessor.applyChunks (StreamProcessor.initState StreamProcessor.demoCfg)
          [[(0, 2)]]) [(0, 3)]).2.2.2 :=
  claim6_amended_static_frozen StreamProcessor.demoCfg (by decide) (by decide) 5
    (by decide) [[(0, 2)]] [(0, 3)]
